import Mathlib

/-!
# cp-fvd: link resolution pipeline (`src/server.js`)

A shallow embedding of the pure parts of `FacebookVideoDownloader`:
`extractVideoId`, `normalizeUrl`, `isValidVideoUrl` and
`extractVideoUrlsFromHtml`, together with the JavaScript built-ins they call
(`String.prototype.includes/replace/split`, regular-expression `match`/`exec`,
`decodeURIComponent`, `Array.prototype.sort`).

A JavaScript string is modelled as the list of its characters.  Strings are
taken to be well formed (no lone surrogates); `jsLength` counts UTF-16 code
units, which is what `String.prototype.length` reports.
-/

namespace FVD

/-- A JavaScript string value. -/
abbrev JSString := List Char

/-! ## String built-ins -/

/-- The value of `s.length`: the number of UTF-16 code units of `s`. -/
def jsLength (s : JSString) : Nat :=
  (s.map (fun c => if 65536 ≤ c.toNat then 2 else 1)).sum

/-- The value of `s.includes(w)`: `w` occurs in `s` as a contiguous substring. -/
def includes : JSString → JSString → Bool
  | [], w => w.isPrefixOf []
  | c :: t, w => w.isPrefixOf (c :: t) || includes t w

/-- The value of `s.startsWith(w)`. -/
def startsWith (s w : JSString) : Bool := w.isPrefixOf s

/-- The value of `s.replace(w, r)` for a string pattern `w` and a replacement `r`
without `$`: the first occurrence of `w` is replaced. -/
def replaceFirst (w r : JSString) : JSString → JSString
  | [] => if w.isPrefixOf [] then r else []
  | c :: t => if w.isPrefixOf (c :: t) then r ++ (c :: t).drop w.length else c :: replaceFirst w r t

/-- Worker of `replaceAll`: the counter is the number of characters of the current
occurrence still to be skipped. -/
def replaceAllAux (w r : JSString) : Nat → JSString → JSString
  | _, [] => []
  | k + 1, _ :: t => replaceAllAux w r k t
  | 0, c :: t =>
    if w.isPrefixOf (c :: t) then r ++ replaceAllAux w r (w.length - 1) t
    else c :: replaceAllAux w r 0 t

/-- The value of `s.replace(/w/g, r)` for a non-empty literal pattern `w`: every
occurrence, scanning left to right without overlap, is replaced. -/
def replaceAll (w r s : JSString) : JSString := replaceAllAux w r 0 s

/-- The value of `s.split(' ')[0]`: the characters before the first space. -/
def firstWord (s : JSString) : JSString := s.takeWhile (fun c => c != ' ')

/-! ## Regular expressions

The regular expressions of the source are sequences of literal characters,
greedy repetitions of one character class, and one capture group. -/

/-- One item of a regular expression. -/
inductive Atom where
  /-- A literal character. -/
  | lit (c : Char)
  /-- A greedy repetition `[class]*` (`min = 0`) or `[class]+` (`min = 1`). -/
  | many (p : Char → Bool) (min : Nat)
  /-- The opening parenthesis of capture group 1. -/
  | gOpen
  /-- The closing parenthesis of capture group 1. -/
  | gClose

/-- A regular expression: its items in order. -/
abbrev Regex := List Atom

/-- The literal characters of `w`, as a regular expression. -/
def lits (w : JSString) : Regex := w.map Atom.lit

/-- The class `\d`. -/
def isDigit (c : Char) : Bool := '0' ≤ c && c ≤ '9'

/-- The class `[a-zA-Z0-9_-]`. -/
def isIdChar (c : Char) : Bool :=
  ('a' ≤ c && c ≤ 'z') || ('A' ≤ c && c ≤ 'Z') || ('0' ≤ c && c ≤ '9') || c = '_' || c = '-'

/-- The class `.`: any character but a line terminator. -/
def isDot (c : Char) : Bool :=
  !(c = '\n' || c = '\r' || c.toNat = 8232 || c.toNat = 8233)

/-- The class `[^"]`. -/
def notQuote (c : Char) : Bool := c != '"'

/-- Append a consumed character to the capture when inside the group. -/
def pushCap (inCap : Bool) (acc : JSString) (c : Char) : JSString :=
  if inCap then acc ++ [c] else acc

/-- Greedy repetition with backtracking: consume as many characters of class `p`
as possible, giving back one at a time while the continuation `k` fails. -/
def greedy (p : Char → Bool) (inCap : Bool)
    (k : JSString → JSString → Option (JSString × JSString)) :
    Nat → JSString → JSString → Option (JSString × JSString)
  | min, acc, [] => if min = 0 then k acc [] else none
  | min, acc, c :: t =>
    if p c then
      match greedy p inCap k (min - 1) (pushCap inCap acc c) t with
      | some r => some r
      | none => if min = 0 then k acc (c :: t) else none
    else if min = 0 then k acc (c :: t) else none

/-- Match a regular expression at the start of the input.  The result is the text
of capture group 1 and the input left after the match. -/
def matchHere : Regex → Bool → JSString → JSString → Option (JSString × JSString)
  | [], _, acc, s => some (acc, s)
  | .lit c :: r, inCap, acc, s =>
    match s with
    | [] => none
    | x :: t => if x = c then matchHere r inCap (pushCap inCap acc x) t else none
  | .many p min :: r, inCap, acc, s =>
    greedy p inCap (fun acc1 s1 => matchHere r inCap acc1 s1) min acc s
  | .gOpen :: r, _, _, s => matchHere r true [] s
  | .gClose :: r, _, acc, s => matchHere r false acc s

/-- The value of `s.match(re)` for a regular expression without the `g` flag: the
leftmost match, as capture group 1 and the input after the match. -/
def regexMatch (re : Regex) : JSString → Option (JSString × JSString)
  | [] => matchHere re false [] []
  | c :: t =>
    match matchHere re false [] (c :: t) with
    | some r => some r
    | none => regexMatch re t

/-- Worker of `execAll`: the counter is the number of characters of the last match
still to be skipped before the next search position. -/
def execAllAux (re : Regex) : Nat → JSString → List JSString
  | _, [] => []
  | k + 1, _ :: t => execAllAux re k t
  | 0, c :: t =>
    match matchHere re false [] (c :: t) with
    | some (cap, rest) => cap :: execAllAux re ((c :: t).length - rest.length - 1) t
    | none => execAllAux re 0 t

/-- The captures `match[1]` of the loop `while ((match = re.exec(s)) !== null)` for a
regular expression with the `g` flag whose matches are never empty. -/
def execAll (re : Regex) (s : JSString) : List JSString := execAllAux re 0 s

/-! ## `extractVideoId` and `normalizeUrl` -/

/-- The pattern `/facebook\.com\/.*\/videos\/(\d+)/`. -/
def videosPattern : Regex :=
  lits "facebook.com/".data ++ [.many isDot 0] ++ lits "/videos/".data ++
    [.gOpen, .many isDigit 1, .gClose]

/-- The pattern `/fb\.watch\/([a-zA-Z0-9_-]+)/`. -/
def fbWatchPattern : Regex :=
  lits "fb.watch/".data ++ [.gOpen, .many isIdChar 1, .gClose]

/-- The pattern `/facebook\.com\/watch\/\?v=(\d+)/`. -/
def watchPattern : Regex :=
  lits "facebook.com/watch/?v=".data ++ [.gOpen, .many isDigit 1, .gClose]

/-- The pattern `/facebook\.com\/.*\/posts\/(\d+)/`. -/
def postsPattern : Regex :=
  lits "facebook.com/".data ++ [.many isDot 0] ++ lits "/posts/".data ++
    [.gOpen, .many isDigit 1, .gClose]

/-- The pattern `/facebook\.com\/video\.php\?v=(\d+)/`. -/
def videoPhpPattern : Regex :=
  lits "facebook.com/video.php?v=".data ++ [.gOpen, .many isDigit 1, .gClose]

/-- The pattern `/facebook\.com\/.*\/videos\/vb\.\d+\/(\d+)/`. -/
def videosVbPattern : Regex :=
  lits "facebook.com/".data ++ [.many isDot 0] ++ lits "/videos/vb.".data ++
    [.many isDigit 1, .lit '/', .gOpen, .many isDigit 1, .gClose]

/-- The pattern `/facebook\.com\/reel\/(\d+)/`. -/
def reelPattern : Regex :=
  lits "facebook.com/reel/".data ++ [.gOpen, .many isDigit 1, .gClose]

/-- The `patterns` array of `extractVideoId`, in declaration order. -/
def idPatterns : List Regex :=
  [videosPattern, fbWatchPattern, watchPattern, postsPattern, videoPhpPattern,
   videosVbPattern, reelPattern]

/-- `extractVideoId(url)`: capture group 1 of the first pattern that matches, or
`none` for `null`. -/
def extractVideoId (url : JSString) : Option JSString :=
  idPatterns.findSome? (fun re => (regexMatch re url).map Prod.fst)

/-- The template literal `https://www.facebook.com/watch/?v=${videoId}`. -/
def watchUrl (videoId : JSString) : JSString :=
  "https://www.facebook.com/watch/?v=".data ++ videoId

/-- The truthiness test `if (videoId)` on the result of `extractVideoId`. -/
def truthyId : Option JSString → Option JSString
  | some (c :: t) => some (c :: t)
  | _ => none

/-- The reel branch and the final `return url` of `normalizeUrl`. -/
def normalizeReel (url : JSString) : JSString :=
  if includes url "/reel/".data then
    match truthyId (extractVideoId url) with
    | some videoId => watchUrl videoId
    | none => url
  else url

/-- The mobile branch of `normalizeUrl`, followed by the reel branch. -/
def normalizeMobile (url : JSString) : JSString :=
  if includes url "m.facebook.com".data then
    replaceFirst "m.facebook.com".data "www.facebook.com".data url
  else normalizeReel url

/-- `normalizeUrl(url)`.  No operation of the body throws on a string, so the
`catch` branch (which returns `url`) is never taken. -/
def normalizeUrl (url : JSString) : JSString :=
  if includes url "fb.watch".data then
    match truthyId (extractVideoId url) with
    | some videoId => watchUrl videoId
    | none => normalizeMobile url
  else normalizeMobile url

/-! ## `decodeURIComponent` -/

/-- The value of a hexadecimal digit. -/
def hexVal (c : Char) : Option Nat :=
  if '0' ≤ c && c ≤ '9' then some (c.toNat - 48)
  else if 'a' ≤ c && c ≤ 'f' then some (c.toNat - 87)
  else if 'A' ≤ c && c ≤ 'F' then some (c.toNat - 55)
  else none

/-- A unit of a percent-encoded string: a plain character or an escaped octet. -/
inductive Piece where
  /-- A character standing for itself. -/
  | chr (c : Char)
  /-- An escape `%XX`, as its octet. -/
  | byte (b : Nat)

/-- Split a string into plain characters and `%XX` escapes; `none` (a `URIError`)
when a `%` is not followed by two hexadecimal digits. -/
def percentPieces : JSString → Option (List Piece)
  | [] => some []
  | c :: t =>
    if c = '%' then
      match t with
      | h :: l :: t2 =>
        match hexVal h, hexVal l with
        | some a, some b => (percentPieces t2).map (fun ps => Piece.byte (16 * a + b) :: ps)
        | _, _ => none
      | _ => none
    else (percentPieces t).map (fun ps => Piece.chr c :: ps)

/-- A UTF-8 continuation octet. -/
def isCont (b : Nat) : Bool := 128 ≤ b && b < 192

/-- Decode the escaped octets as UTF-8; `none` (a `URIError`) when an escape sequence
is not the well-formed UTF-8 encoding of a code point, or when a continuation
octet is not itself written as an escape. -/
def utf8Pieces : List Piece → Option JSString
  | [] => some []
  | .chr c :: t => (utf8Pieces t).map (fun r => c :: r)
  | .byte b :: t =>
    if b < 128 then (utf8Pieces t).map (fun r => Char.ofNat b :: r)
    else if b < 192 then none
    else if b < 224 then
      match t with
      | .byte b1 :: t1 =>
        let cp := (b - 192) * 64 + (b1 - 128)
        if isCont b1 && 128 ≤ cp then (utf8Pieces t1).map (fun r => Char.ofNat cp :: r)
        else none
      | _ => none
    else if b < 240 then
      match t with
      | .byte b1 :: .byte b2 :: t2 =>
        let cp := (b - 224) * 4096 + (b1 - 128) * 64 + (b2 - 128)
        if isCont b1 && isCont b2 && 2048 ≤ cp && !(55296 ≤ cp && cp ≤ 57343) then
          (utf8Pieces t2).map (fun r => Char.ofNat cp :: r)
        else none
      | _ => none
    else if b < 248 then
      match t with
      | .byte b1 :: .byte b2 :: .byte b3 :: t3 =>
        let cp := (b - 240) * 262144 + (b1 - 128) * 4096 + (b2 - 128) * 64 + (b3 - 128)
        if isCont b1 && isCont b2 && isCont b3 && 65536 ≤ cp && cp ≤ 1114111 then
          (utf8Pieces t3).map (fun r => Char.ofNat cp :: r)
        else none
      | _ => none
    else none

/-- `decodeURIComponent(s)`: `none` when it throws a `URIError`. -/
def decodeURIComponent (s : JSString) : Option JSString :=
  (percentPieces s).bind utf8Pieces

/-! ## `isValidVideoUrl` -/

/-- The platform URL parser as seen by the program: the `protocol` property
(scheme and colon) of `new URL(s)`, or `none` when the constructor throws. -/
abbrev UrlParser := JSString → Option JSString

/-- The `validDomains` array. -/
def validDomains : List JSString :=
  ["video.xx.fbcdn.net".data, "scontent.xx.fbcdn.net".data, "video.fxx".data,
   "scontent-".data, "fbcdn.net".data]

/-- The value of `validDomains.some(domain => url.includes(domain))`. -/
def hasValidDomain (url : JSString) : Bool := validDomains.any (fun domain => includes url domain)

/-- The value of `hasVideoIndicators`. -/
def hasVideoIndicators (url : JSString) : Bool :=
  includes url ".mp4".data || includes url "video".data || includes url "type=video".data

/-- `isValidVideoUrl(url)` on a string, with the platform URL parser `P`. -/
def isValidVideoUrl (P : UrlParser) (url : JSString) : Bool :=
  if jsLength url < 10 then false
  else
    match P url with
    | none => false
    | some protocol => hasValidDomain url && hasVideoIndicators url && startsWith protocol "http".data

/-! ## `extractVideoUrlsFromHtml` -/

/-- An entry of `videoUrls`. -/
structure VideoLink where
  /-- The quality label. -/
  quality : JSString
  /-- The container label. -/
  format : JSString
  /-- The size estimate. -/
  size : JSString
  /-- The media URL. -/
  url : JSString
deriving DecidableEq, Repr

/-- A regular expression of the `patterns` array with its `source` text. -/
structure Rule where
  /-- The value of `pattern.source`. -/
  source : JSString
  /-- The regular expression. -/
  re : Regex

/-- The rule `/"key":"([^"]+)"/g`. -/
def quotedRule (key : JSString) : Rule where
  source := "\"".data ++ key ++ "\":\"([^\"]+)\"".data
  re := lits ("\"".data ++ key ++ "\":\"".data) ++ [.gOpen, .many notQuote 1, .gClose, .lit '"']

/-- The rule `/"src":"([^"]*\.mp4[^"]*)"/g`. -/
def srcRule : Rule where
  source := "\"src\":\"([^\"]*\\.mp4[^\"]*)\"".data
  re := lits "\"src\":\"".data ++ [.gOpen, .many notQuote 0] ++ lits ".mp4".data ++
    [.many notQuote 0, .gClose, .lit '"']

/-- The `patterns` array of `extractVideoUrlsFromHtml`, in declaration order. -/
def patterns : List Rule :=
  [quotedRule "hd_src".data, quotedRule "hd_src_no_ratelimit".data,
   quotedRule "browser_native_hd_url".data,
   quotedRule "sd_src".data, quotedRule "sd_src_no_ratelimit".data,
   quotedRule "browser_native_sd_url".data,
   quotedRule "playable_url".data, quotedRule "playable_url_quality_hd".data,
   quotedRule "video_url".data, srcRule,
   quotedRule "dash_manifest".data, quotedRule "progressive_url".data]

/-- The `qualityMap` object, as its entries.  `extractVideoUrlsFromHtml` declares it
and never reads it. -/
def qualityMap : List (JSString × JSString) :=
  [("hd_src".data, "HD (1080p)".data), ("hd_src_no_ratelimit".data, "HD (1080p)".data),
   ("browser_native_hd_url".data, "HD (720p)".data), ("sd_src".data, "SD (480p)".data),
   ("sd_src_no_ratelimit".data, "SD (480p)".data),
   ("browser_native_sd_url".data, "SD (360p)".data), ("playable_url".data, "Standard".data),
   ("playable_url_quality_hd".data, "HD".data), ("video_url".data, "Standard".data),
   ("src".data, "Mobile".data), ("progressive_url".data, "Progressive".data)]

/-- The pattern `/\{"video_id":"[^"]+","video_url":"([^"]+)"/g`. -/
def jsonPattern : Regex :=
  lits "\x7b\"video_id\":\"".data ++ [.many notQuote 1] ++ lits "\",\"video_url\":\"".data ++
    [.gOpen, .many notQuote 1, .gClose, .lit '"']

/-- The value of `s.replace(/\\/g, '')`. -/
def stripBackslashes (s : JSString) : JSString := s.filter (fun c => c != '\\')

/-- The escape reversal of the rule loop, before percent-decoding. -/
def unescapeUrl (raw : JSString) : JSString :=
  stripBackslashes
    (replaceAll "\\/".data "/".data
      (replaceAll "\\u0026".data "&".data (replaceAll "\\u0025".data "%".data raw)))

/-- The cleaning of a capture in the rule loop: escape reversal, then
`decodeURIComponent`, whose failure keeps the undecoded text. -/
def cleanRuleUrl (raw : JSString) : JSString :=
  match decodeURIComponent (unescapeUrl raw) with
  | some decoded => decoded
  | none => unescapeUrl raw

/-- The cleaning of a capture in the JSON loop. -/
def cleanJsonUrl (raw : JSString) : JSString := stripBackslashes raw

/-- The quality and size labels the rule loop gives to a URL found by a pattern. -/
def classify (source url : JSString) : JSString × JSString :=
  if includes url "hd".data || includes source "hd".data then ("HD (720p)".data, "~50MB".data)
  else if includes url "sd".data || includes source "sd".data then
    ("SD (480p)".data, "~25MB".data)
  else if includes source "src".data then ("Mobile (360p)".data, "~15MB".data)
  else ("Standard".data, "~30MB".data)

/-- The two accumulators of `extractVideoUrlsFromHtml`. -/
structure Found where
  /-- The array `videoUrls`. -/
  videoUrls : List VideoLink
  /-- The set `foundUrls`, in insertion order. -/
  foundUrls : List JSString

/-- The body of the `while` loop of the rule pass, for one capture. -/
def ruleStep (P : UrlParser) (source : JSString) (acc : Found) (raw : JSString) : Found :=
  let url := cleanRuleUrl raw
  if isValidVideoUrl P url && !decide (url ∈ acc.foundUrls) then
    { foundUrls := acc.foundUrls ++ [url]
      videoUrls := acc.videoUrls ++
        [{ quality := (classify source url).1, format := "MP4".data,
           size := (classify source url).2, url := url }] }
  else acc

/-- The matches of one rule, processed in order. -/
def runRule (P : UrlParser) (html : JSString) (acc : Found) (rule : Rule) : Found :=
  (execAll rule.re html).foldl (ruleStep P rule.source) acc

/-- The body of the `while` loop of the JSON pass, for one capture. -/
def jsonStep (P : UrlParser) (acc : Found) (raw : JSString) : Found :=
  let url := cleanJsonUrl raw
  if isValidVideoUrl P url && !decide (url ∈ acc.foundUrls) then
    { foundUrls := acc.foundUrls ++ [url]
      videoUrls := acc.videoUrls ++
        [{ quality := "Standard".data, format := "MP4".data, size := "~30MB".data, url := url }] }
  else acc

/-- The state after `patterns.forEach(...)`. -/
def rulePass (P : UrlParser) (html : JSString) : Found :=
  patterns.foldl (runRule P html) { videoUrls := [], foundUrls := [] }

/-- The array `videoUrls` before it is sorted: the candidates in discovery order. -/
def discovered (P : UrlParser) (html : JSString) : List VideoLink :=
  ((execAll jsonPattern html).foldl (jsonStep P) (rulePass P html)).videoUrls

/-- The value of `qualityOrder[word] || 0`, for the labels the extractor assigns. -/
def qualityOrder (word : JSString) : Int :=
  if word = "HD".data then 3
  else if word = "SD".data then 2
  else if word = "Mobile".data then 1
  else 0

/-- The quality-tier ordinal of a candidate: `qualityOrder[quality.split(' ')[0]] || 0`. -/
def tier (v : VideoLink) : Int := qualityOrder (firstWord v.quality)

/-- The comparator passed to `sort`. -/
def compareQuality (a b : VideoLink) : Int := tier b - tier a

/-- `Array.prototype.sort(cmp)`: a stable sort, here by insertion; `a` stays before
`b` when `cmp(a, b) ≤ 0`. -/
def jsSort {α : Type} (cmp : α → α → Int) (l : List α) : List α :=
  l.insertionSort (fun a b => cmp a b ≤ 0)

/-- `extractVideoUrlsFromHtml(htmlContent)` on a string.  No operation of the `try`
block throws, so the `catch` branch (which returns `[]`) is never taken. -/
def extractVideoUrlsFromHtml (P : UrlParser) (html : JSString) : List VideoLink :=
  jsSort compareQuality (discovered P html)

/-! ## A model of the platform URL parser

`urlProtocol` follows the URL standard's parser (preprocessing, scheme state,
authority of plain ASCII host names).  It is used to run the program on concrete
inputs; the general theorems hold for every parser. -/

/-- A C0 control character or a space. -/
def isC0OrSpace (c : Char) : Bool := c.toNat ≤ 32

/-- An ASCII tab or newline. -/
def isTabOrNewline (c : Char) : Bool := c = '\t' || c = '\n' || c = '\r'

/-- An ASCII letter. -/
def isAsciiAlpha (c : Char) : Bool := ('a' ≤ c && c ≤ 'z') || ('A' ≤ c && c ≤ 'Z')

/-- A character allowed in a scheme after the first. -/
def isSchemeChar (c : Char) : Bool :=
  isAsciiAlpha c || isDigit c || c = '+' || c = '-' || c = '.'

/-- ASCII lower-casing. -/
def asciiLower (c : Char) : Char :=
  if 'A' ≤ c && c ≤ 'Z' then Char.ofNat (c.toNat + 32) else c

/-- The input after the parser's preprocessing: leading and trailing C0 controls and
spaces are stripped, tabs and newlines are removed. -/
def urlPreprocess (s : JSString) : JSString :=
  (((s.dropWhile isC0OrSpace).reverse.dropWhile isC0OrSpace).reverse).filter
    (fun c => !isTabOrNewline c)

/-- The scheme state: the lower-cased scheme and the input after the colon. -/
def schemeRest (acc : JSString) : JSString → Option (JSString × JSString)
  | [] => none
  | c :: t =>
    if isSchemeChar c then schemeRest (acc ++ [asciiLower c]) t
    else if c = ':' then some (acc, t)
    else none

/-- The scheme start state. -/
def parseScheme : JSString → Option (JSString × JSString)
  | [] => none
  | c :: t => if isAsciiAlpha c then schemeRest [asciiLower c] t else none

/-- A character of the host names the model accepts. -/
def isHostChar (c : Char) : Bool := isAsciiAlpha c || isDigit c || c = '-' || c = '.'

/-- The last dot-separated label of a host. -/
def lastLabel (host : JSString) : JSString :=
  (host.reverse.takeWhile (fun c => c != '.')).reverse

/-- The value of a run of decimal digits. -/
def decimalValue (ds : JSString) : Nat := ds.foldl (fun n c => 10 * n + (c.toNat - 48)) 0

/-- The authorities the model accepts: no credentials; a non-empty host of ASCII
letters, digits, hyphens and dots whose last label starts with a letter and which
has no `xn--` label; an optional decimal port below 65536. -/
def authorityOk (auth : JSString) : Bool :=
  let host := auth.takeWhile (fun c => c != ':')
  let port := (auth.dropWhile (fun c => c != ':')).drop 1
  !host.isEmpty && host.all isHostChar && !includes (host.map asciiLower) "xn--".data &&
    (match lastLabel host with
     | c :: _ => isAsciiAlpha c
     | [] => false) &&
    port.all isDigit && decide (decimalValue port < 65536)

/-- The authority of a URL remainder: up to the first `/`, `?` or `#`, and for a
special scheme also up to the first `\`. -/
def authorityOf (special : Bool) (rest : JSString) : JSString :=
  rest.takeWhile (fun c => !(c = '/' || c = '?' || c = '#' || (special && c = '\\')))

/-- Whether the model accepts what follows the scheme's colon.  For `http` and `https`
any run of slashes is skipped before the authority.  For a scheme that is not
special, `//` introduces an authority and anything else is a path, which always
parses.  The other special schemes are outside the model. -/
def remainderOk (scheme rest : JSString) : Bool :=
  if scheme = "http".data || scheme = "https".data then
    authorityOk (authorityOf true (rest.dropWhile (fun c => c = '/' || c = '\\')))
  else if scheme = "ftp".data || scheme = "ws".data || scheme = "wss".data ||
      scheme = "file".data then false
  else
    match rest with
    | '/' :: '/' :: t => authorityOk (authorityOf false t)
    | _ => true

/-- The `protocol` of `new URL(s)`.  Where the model answers `some`, the platform
parser succeeds with that protocol; it answers `none` where the platform parser
throws and also on the inputs outside the modelled fragment. -/
def urlProtocol : UrlParser := fun s =>
  match parseScheme (urlPreprocess s) with
  | some (scheme, rest) => if remainderOk scheme rest then some (scheme ++ [':']) else none
  | none => none

/-! ## JavaScript values and `formatDuration`

Numbers are modelled as integers: a double represents every whole number below
`2 ^ 53` in absolute value exactly, and on these the arithmetic of
`formatDuration` is exact. -/

/-- A JavaScript value as `formatDuration` and the request handlers receive it:
`undefined`, `null`, a string or a whole number. -/
inductive JSValue where
  /-- The value `undefined`. -/
  | undefined
  /-- The value `null`. -/
  | null
  /-- A string. -/
  | str (s : JSString)
  /-- A whole number. -/
  | num (n : Int)
deriving DecidableEq, Repr

/-- The value of `!v`. -/
def falsy : JSValue → Bool
  | .undefined => true
  | .null => true
  | .str s => s.isEmpty
  | .num n => n = 0

/-- White space and line terminators: what `parseInt` and `trim` skip and `\s`
matches. -/
def isStrWhiteSpace (c : Char) : Bool :=
  c.toNat = 9 || c.toNat = 10 || c.toNat = 11 || c.toNat = 12 || c.toNat = 13 ||
    c.toNat = 32 || c.toNat = 160 || c.toNat = 5760 || (8192 ≤ c.toNat && c.toNat ≤ 8202) ||
    c.toNat = 8232 || c.toNat = 8233 || c.toNat = 8239 || c.toNat = 8287 ||
    c.toNat = 12288 || c.toNat = 65279

/-- The decimal digit of a number below ten. -/
def digitChar (d : Nat) : Char := Char.ofNat (48 + d)

/-- Worker of `toDecimal`: the digits of `n`, most significant first, in front of
`acc`; the first argument bounds the number of digits. -/
def toDecimalAux : Nat → Nat → JSString → JSString
  | 0, _, acc => acc
  | fuel + 1, n, acc =>
    if n / 10 = 0 then digitChar (n % 10) :: acc
    else toDecimalAux fuel (n / 10) (digitChar (n % 10) :: acc)

/-- The value of `n.toString()` for a whole number `n ≥ 0`. -/
def toDecimal (n : Nat) : JSString := toDecimalAux (n + 1) n []

/-- The value of `n.toString()` for a whole number. -/
def intToString (n : Int) : JSString :=
  if n < 0 then '-' :: toDecimal n.natAbs else toDecimal n.natAbs

/-- The value of `String(v)`. -/
def toJSString : JSValue → JSString
  | .undefined => "undefined".data
  | .null => "null".data
  | .str s => s
  | .num n => intToString n

/-- The value of a run of hexadecimal digits. -/
def hexValue (ds : JSString) : Nat :=
  ds.foldl (fun n c => 16 * n + (hexVal c).getD 0) 0

/-- The digits `parseInt` reads after the sign, and their value: hexadecimal after a
prefix `0x` or `0X`, decimal otherwise; `none` when there is no digit. -/
def parseDigits (t : JSString) : Option Nat :=
  match t with
  | '0' :: x :: r =>
    if x = 'x' || x = 'X' then
      (if (r.takeWhile (fun c => (hexVal c).isSome)).isEmpty then none
       else some (hexValue (r.takeWhile (fun c => (hexVal c).isSome))))
    else some (decimalValue (t.takeWhile isDigit))
  | _ =>
    if (t.takeWhile isDigit).isEmpty then none else some (decimalValue (t.takeWhile isDigit))

/-- `parseInt(s)` on a string: `none` for `NaN`. -/
def parseIntString (s : JSString) : Option Int :=
  match s.dropWhile isStrWhiteSpace with
  | '-' :: t => (parseDigits t).map (fun n => -(n : Int))
  | '+' :: t => (parseDigits t).map (fun n => (n : Int))
  | t => (parseDigits t).map (fun n => (n : Int))

/-- `parseInt(v)`: the argument is converted to a string first. -/
def parseInt (v : JSValue) : Option Int := parseIntString (toJSString v)

/-- The value of `s.padStart(2, '0')`. -/
def padStart2 (s : JSString) : JSString :=
  if 2 ≤ jsLength s then s else List.replicate (2 - jsLength s) '0' ++ s

/-- `formatDuration(seconds)`.  `Math.floor(a / b)` is floor division, `a % b` is the
remainder with the sign of `a`. -/
def formatDuration (seconds : JSValue) : JSValue :=
  if falsy seconds || seconds = .str "0:00".data then .str "0:00".data
  else
    match parseInt seconds with
    | none => seconds
    | some num =>
      let hours := num / 3600
      let minutes := (Int.tmod num 3600) / 60
      let secs := Int.tmod num 60
      if hours > 0 then
        .str (intToString hours ++ ":".data ++ padStart2 (intToString minutes) ++ ":".data ++
          padStart2 (intToString secs))
      else .str (intToString minutes ++ ":".data ++ padStart2 (intToString secs))

/-- Zero-padding to two digits, for a number below one hundred. -/
def twoDigits (k : Nat) : JSString := [digitChar (k / 10), digitChar (k % 10)]

/-- The duration label as the specification words it: with `h = n div 3600`,
`m = (n mod 3600) div 60` and `s = n mod 60`, the text `h:MM:SS` when `h > 0` and
`m:SS` otherwise. -/
def durationLabel (n : Nat) : JSString :=
  if 0 < n / 3600 then
    toDecimal (n / 3600) ++ ":".data ++ twoDigits (n % 3600 / 60) ++ ":".data ++ twoDigits (n % 60)
  else toDecimal (n % 3600 / 60) ++ ":".data ++ twoDigits (n % 60)

/-! ## `encodeURIComponent` and the page metadata -/

/-- The characters `encodeURIComponent` leaves as they are: ASCII letters and digits
and `- _ . ! ~ * ' ( )`. -/
def isUriUnreserved (c : Char) : Bool :=
  isAsciiAlpha c || isDigit c || c = '-' || c = '_' || c = '.' || c = '!' || c = '~' ||
    c = '*' || c.toNat = 39 || c = '(' || c = ')'

/-- The UTF-8 octets of a code point. -/
def utf8Octets (n : Nat) : List Nat :=
  if n < 128 then [n]
  else if n < 2048 then [192 + n / 64, 128 + n % 64]
  else if n < 65536 then [224 + n / 4096, 128 + n / 64 % 64, 128 + n % 64]
  else [240 + n / 262144, 128 + n / 4096 % 64, 128 + n / 64 % 64, 128 + n % 64]

/-- An upper-case hexadecimal digit. -/
def hexDigit (d : Nat) : Char := if d < 10 then Char.ofNat (48 + d) else Char.ofNat (55 + d)

/-- The escape `%XX` of an octet. -/
def percentEscape (b : Nat) : JSString := ['%', hexDigit (b / 16), hexDigit (b % 16)]

/-- `encodeURIComponent(s)` on a well-formed string. -/
def encodeURIComponent (s : JSString) : JSString :=
  s.flatMap (fun c =>
    if isUriUnreserved c then [c] else (utf8Octets c.toNat).flatMap percentEscape)

/-- The value of `a || b`. -/
def jsOr (a b : JSValue) : JSValue := if falsy a then b else a

/-- An optional string as a value: `undefined` when absent. -/
def optValue : Option JSString → JSValue
  | some s => .str s
  | none => .undefined

/-- The value of `s.trim()`. -/
def jsTrim (s : JSString) : JSString :=
  ((s.dropWhile isStrWhiteSpace).reverse.dropWhile isStrWhiteSpace).reverse

/-- The pattern `/\s*\|\s*Facebook\s*$/` without its end anchor. -/
def facebookSuffix : Regex :=
  [.many isStrWhiteSpace 0, .lit '|', .many isStrWhiteSpace 0] ++ lits "Facebook".data ++
    [.many isStrWhiteSpace 0]

/-- The value of `s.replace(/\s*\|\s*Facebook\s*$/, '')`: the text before the leftmost
position at which the pattern matches up to the end of the string. -/
def stripFacebookSuffix : JSString → JSString
  | [] => []
  | c :: t =>
    match matchHere facebookSuffix false [] (c :: t) with
    | some (_, []) => []
    | _ => c :: stripFacebookSuffix t

/-! ## The resolution orchestrator -/

/-- The three fetch strategies of `getVideoDetails`. -/
inductive Strategy where
  /-- The strategy `extractFromDirectPage`. -/
  | direct
  /-- The strategy `extractFromMobilePage`. -/
  | mobile
  /-- The strategy `extractFromEmbedded`. -/
  | embedded
deriving DecidableEq, Repr

/-- One call of `axios.get`: the strategy that issues it (which fixes the headers, the
timeout and the redirect limit) and the URL it requests. -/
structure FetchCall where
  /-- The strategy whose call site issues the request. -/
  strategy : Strategy
  /-- The requested URL. -/
  url : JSString
deriving DecidableEq, Repr

/-- What the program takes from its platform: the URL parser, the upstream fetch and
the document queries of `cheerio`. -/
structure Platform where
  /-- The `protocol` of `new URL(s)`, `none` when it throws. -/
  parse : UrlParser
  /-- The `response.data` of `axios.get`, given the calls issued before; `none` when
  the call rejects (network error, non-success status, timeout). -/
  fetch : List FetchCall → FetchCall → Option JSString
  /-- The value of `$('title').text()` on a page. -/
  titleText : JSString → JSString
  /-- The value of `$(selector).attr('content')` on a page, by selector. -/
  metaContent : JSString → JSString → Option JSString

/-- The success object of a strategy. -/
structure VideoDetails where
  /-- The field `title`. -/
  title : JSString
  /-- The field `thumbnail`. -/
  thumbnail : JSValue
  /-- The field `duration`. -/
  duration : JSValue
  /-- The field `downloadLinks`. -/
  downloadLinks : List VideoLink
deriving DecidableEq, Repr

/-- The result of a strategy: the success object or `{ success: false }`. -/
inductive StrategyResult where
  /-- A success object. -/
  | success (details : VideoDetails)
  /-- The object `{ success: false }`. -/
  | failure
deriving DecidableEq, Repr

/-- The title of `extractFromDirectPage`. -/
def directTitle (env : Platform) (html : JSString) : JSString :=
  jsTrim (stripFacebookSuffix
    (toJSString (jsOr (jsOr (.str (env.titleText html))
      (optValue (env.metaContent "meta[property=\"og:title\"]".data html)))
      (.str "Facebook Video".data))))

/-- The title of `extractFromMobilePage`. -/
def mobileTitle (env : Platform) (html : JSString) : JSString :=
  toJSString (jsOr (.str (jsTrim (stripFacebookSuffix (env.titleText html))))
    (.str "Facebook Video".data))

/-- The request of `extractFromDirectPage`: the URL as given. -/
def directCall (url : JSString) : FetchCall := { strategy := .direct, url := url }

/-- The request of `extractFromMobilePage`: `url.replace('www.facebook.com',
'm.facebook.com')`. -/
def mobileCall (url : JSString) : FetchCall :=
  { strategy := .mobile, url := replaceFirst "www.facebook.com".data "m.facebook.com".data url }

/-- The address `https://www.facebook.com/plugins/video.php?href=...` of the embedded
player. -/
def embedUrl (url : JSString) : JSString :=
  "https://www.facebook.com/plugins/video.php?href=".data ++ encodeURIComponent url

/-- The request of `extractFromEmbedded`. -/
def embeddedCall (url : JSString) : FetchCall := { strategy := .embedded, url := embedUrl url }

/-- `extractFromDirectPage(url)` after the calls `hist`: the result and the calls
issued so far.  A rejected fetch is caught and gives `{ success: false }`. -/
def extractFromDirectPage (env : Platform) (hist : List FetchCall) (url : JSString) :
    StrategyResult × List FetchCall :=
  match env.fetch hist (directCall url) with
  | none => (.failure, hist ++ [directCall url])
  | some html =>
    if 0 < (extractVideoUrlsFromHtml env.parse html).length then
      (.success
        { title := directTitle env html
          thumbnail := jsOr (optValue (env.metaContent "meta[property=\"og:image\"]".data html))
            (optValue (env.metaContent "meta[name=\"twitter:image\"]".data html))
          duration :=
            formatDuration (optValue (env.metaContent "meta[property=\"video:duration\"]".data html))
          downloadLinks := extractVideoUrlsFromHtml env.parse html },
        hist ++ [directCall url])
    else (.failure, hist ++ [directCall url])

/-- `extractFromMobilePage(url)` after the calls `hist`. -/
def extractFromMobilePage (env : Platform) (hist : List FetchCall) (url : JSString) :
    StrategyResult × List FetchCall :=
  match env.fetch hist (mobileCall url) with
  | none => (.failure, hist ++ [mobileCall url])
  | some html =>
    if 0 < (extractVideoUrlsFromHtml env.parse html).length then
      (.success
        { title := mobileTitle env html
          thumbnail := optValue (env.metaContent "meta[property=\"og:image\"]".data html)
          duration := .str "0:00".data
          downloadLinks := extractVideoUrlsFromHtml env.parse html },
        hist ++ [mobileCall url])
    else (.failure, hist ++ [mobileCall url])

/-- `extractFromEmbedded(url)` after the calls `hist`: without an identifier it
returns `{ success: false }` before any fetch. -/
def extractFromEmbedded (env : Platform) (hist : List FetchCall) (url : JSString) :
    StrategyResult × List FetchCall :=
  match truthyId (extractVideoId url) with
  | none => (.failure, hist)
  | some _ =>
    match env.fetch hist (embeddedCall url) with
    | none => (.failure, hist ++ [embeddedCall url])
    | some html =>
      if 0 < (extractVideoUrlsFromHtml env.parse html).length then
        (.success
          { title := "Facebook Video".data
            thumbnail := .null
            duration := .str "0:00".data
            downloadLinks := extractVideoUrlsFromHtml env.parse html },
          hist ++ [embeddedCall url])
      else (.failure, hist ++ [embeddedCall url])

/-- The test `result.success && result.downloadLinks.length > 0`. -/
def usable : StrategyResult → Option VideoDetails
  | .success details => if 0 < details.downloadLinks.length then some details else none
  | .failure => none

/-- The value `getVideoDetails` resolves to: a success object or
`{ success: false, error }`. -/
inductive Resolution where
  /-- The success object of a strategy. -/
  | found (details : VideoDetails)
  /-- The failure object with its `error` text. -/
  | failed (error : JSString)
deriving DecidableEq, Repr

/-- The `error` text returned when every strategy has failed. -/
def exhaustedError : JSString :=
  "Unable to extract video. The video might be private, deleted, or require login.".data

/-- `getVideoDetails(videoUrl)` on a string: the resolution and the calls issued, in
order.  Nothing outside the strategies throws, so the outer `catch` is never
taken. -/
def getVideoDetails (env : Platform) (videoUrl : JSString) : Resolution × List FetchCall :=
  let normalizedUrl := normalizeUrl videoUrl
  let directResult := extractFromDirectPage env [] normalizedUrl
  match usable directResult.1 with
  | some details => (.found details, directResult.2)
  | none =>
    let mobileResult := extractFromMobilePage env directResult.2 normalizedUrl
    match usable mobileResult.1 with
    | some details => (.found details, mobileResult.2)
    | none =>
      let embedResult := extractFromEmbedded env mobileResult.2 normalizedUrl
      match usable embedResult.1 with
      | some details => (.found details, embedResult.2)
      | none => (.failed exhaustedError, embedResult.2)

/-! ## The request handlers -/

/-- The value of `facebookUrlPattern.test(s)` for
`/^https?:\/\/(www\.|m\.)?(facebook\.com|fb\.watch)/i`: one of the alternatives is a
prefix of `s`, ASCII case ignored. -/
def facebookUrlPatternTest (s : JSString) : Bool :=
  ["http://".data, "https://".data].any (fun scheme =>
    ["www.".data, "m.".data, []].any (fun sub =>
      ["facebook.com".data, "fb.watch".data].any (fun host =>
        (scheme ++ sub ++ host).isPrefixOf (s.map asciiLower))))

/-- The response of `POST /api/video-details`: the status and the JSON body. -/
structure DetailsResponse where
  /-- The HTTP status. -/
  status : Nat
  /-- The JSON body. -/
  body : Resolution
deriving DecidableEq, Repr

/-- The handler of `POST /api/video-details` on the body field `videoUrl`: the
response and the upstream calls issued.  A value that passes the pattern test is a
string. -/
def videoDetailsHandler (env : Platform) (videoUrl : JSValue) :
    DetailsResponse × List FetchCall :=
  if falsy videoUrl then
    ({ status := 400, body := .failed "Video URL is required".data }, [])
  else if !facebookUrlPatternTest (toJSString videoUrl) then
    ({ status := 400, body := .failed "Please provide a valid Facebook video URL".data }, [])
  else
    match getVideoDetails env (toJSString videoUrl) with
    | (.found details, calls) => ({ status := 200, body := .found details }, calls)
    | (.failed error, calls) => ({ status := 400, body := .failed error }, calls)

/-- The upstream response headers the relay reads; `undefined` when absent. -/
structure UpstreamHeaders where
  /-- The header `content-type`. -/
  contentType : JSValue
  /-- The header `content-length`. -/
  contentLength : JSValue
  /-- The header `accept-ranges`. -/
  acceptRanges : JSValue
  /-- The header `content-range`. -/
  contentRange : JSValue

/-- The status and headers of a relay response. -/
structure RelayResponse where
  /-- The HTTP status. -/
  status : Nat
  /-- The headers set, in order. -/
  headers : List (JSString × JSString)
deriving DecidableEq, Repr

/-- The headers and status `GET /api/download-proxy` sets once the upstream fetch has
succeeded, given the inbound `Range` header and the `filename` parameter. -/
def relayResponse (inboundRange filename : JSValue) (up : UpstreamHeaders) : RelayResponse :=
  let base : List (JSString × JSString) :=
    [("Content-Type".data, toJSString (jsOr up.contentType (.str "video/mp4".data))),
     ("Content-Disposition".data, "attachment; filename=\"".data ++
        toJSString (jsOr filename (.str "facebook_video.mp4".data)) ++ "\"".data),
     ("Access-Control-Allow-Origin".data, "*".data)]
  let len : List (JSString × JSString) :=
    if falsy up.contentLength then [] else [("Content-Length".data, toJSString up.contentLength)]
  let acc : List (JSString × JSString) :=
    if falsy up.acceptRanges then [] else [("Accept-Ranges".data, toJSString up.acceptRanges)]
  if !falsy inboundRange && !falsy up.contentRange then
    { status := 206,
      headers := base ++ len ++ acc ++ [("Content-Range".data, toJSString up.contentRange)] }
  else { status := 200, headers := base ++ len ++ acc }

/-- The value of the header `name` in a response, if it was set. -/
def headerOf (name : JSString) (r : RelayResponse) : Option JSString :=
  (r.headers.find? (fun h => decide (h.1 = name))).map Prod.snd

/-! ## What a regular expression matches -/

/-- Some prefix of `s` is matched by the regular expression: the declarative reading
of the items, without the order in which the matcher tries the repetitions. -/
def Matches : Regex → JSString → Prop
  | [], _ => True
  | .lit c :: r, s => ∃ t, s = c :: t ∧ Matches r t
  | .many p min :: r, s =>
    ∃ run t, s = run ++ t ∧ (∀ c ∈ run, p c = true) ∧ min ≤ run.length ∧ Matches r t
  | .gOpen :: r, s => Matches r s
  | .gClose :: r, s => Matches r s

/-- A regular expression without its leading group parentheses. -/
def stripMarks : Regex → Regex
  | .gOpen :: r => stripMarks r
  | .gClose :: r => stripMarks r
  | r => r

/-- After its leading group parentheses the regular expression ends or continues
with a literal. -/
def tailOk (r : Regex) : Bool :=
  match stripMarks r with
  | [] => true
  | .lit _ :: _ => true
  | _ => false

/-- A literal `w` is followed by a literal other than `w` and `.`; a repetition
takes at most one character as its minimum, accepts `m` when it accepts `w`, and is
followed by a literal or by nothing. -/
def wSafe : Regex → Bool
  | [] => true
  | .lit x :: r =>
    (x != 'w' ||
      (match r with
       | .lit y :: _ => y != 'w' && y != '.'
       | _ => false)) && wSafe r
  | .many p min :: r => (!p 'w' || p 'm') && decide (min ≤ 1) && tailOk r && wSafe r
  | .gOpen :: r => wSafe r
  | .gClose :: r => wSafe r

/-- The regular expression starts with a literal other than `w`. -/
def startsOffW : Regex → Bool
  | .lit x :: _ => x != 'w'
  | _ => false

/-! ## Sample inputs -/

/-- A media URL with neither `hd` nor `sd` in it. -/
def mediaX : JSString := "https://video.xx.fbcdn.net/v/x.mp4".data

/-- A second media URL with neither `hd` nor `sd` in it. -/
def mediaY : JSString := "https://video.xx.fbcdn.net/v/y.mp4".data

/-- Markup with one `hd_src` entry, for `mediaX`. -/
def hdOnlyHtml : JSString := "\"hd_src\":\"https://video.xx.fbcdn.net/v/x.mp4\"".data

/-- Markup with an `sd_src` entry for `mediaY` followed by an `hd_src` entry for
`mediaX`. -/
def sdThenHdHtml : JSString :=
  "\"sd_src\":\"https://video.xx.fbcdn.net/v/y.mp4\",\"hd_src\":\"https://video.xx.fbcdn.net/v/x.mp4\"".data

/-- Markup in which `mediaY` is captured by an `hd_src` entry, then `mediaX` by an
`hd_src` entry, then `mediaY` by an `sd_src` entry. -/
def repeatedHtml : JSString :=
  "\"hd_src\":\"https://video.xx.fbcdn.net/v/y.mp4\",\"hd_src\":\"https://video.xx.fbcdn.net/v/x.mp4\",\"sd_src\":\"https://video.xx.fbcdn.net/v/y.mp4\"".data

/-- A capture as it stands in page markup: slashes escaped with a backslash, the
ampersand written as the escape `u0026` after a backslash. -/
def escapedCapture : JSString :=
  "https:\\/\\/video.xx.fbcdn.net\\/v\\/x.mp4?a=1\\u0026b=2".data

/-- Markup with one object literal carrying `escapedCapture` as its `video_url`. -/
def jsonHtml : JSString :=
  "\x7b\"video_id\":\"1\",\"video_url\":\"https:\\/\\/video.xx.fbcdn.net\\/v\\/x.mp4?a=1\\u0026b=2\"\x7d".data

/-- The host of an `http` or `https` URL as the URL model reads it: the authority
after the scheme and its slashes, up to the port. -/
def urlHost (s : JSString) : Option JSString :=
  (parseScheme (urlPreprocess s)).map (fun x =>
    ((authorityOf true (x.2.dropWhile (fun c => c = '/' || c = '\\'))).takeWhile
      (fun c => c != ':')).map asciiLower)

/-- The allow-listed host family of page addresses. -/
def allowedHosts : List JSString :=
  ["facebook.com".data, "www.facebook.com".data, "m.facebook.com".data, "fb.watch".data]

/-- A platform on which every fetch fails. -/
def offlinePlatform : Platform where
  parse := urlProtocol
  fetch := fun _ _ => none
  titleText := fun _ => []
  metaContent := fun _ _ => none

/-- A platform on which the direct fetch fails and the mobile page is `hdOnlyHtml`. -/
def mobileOnlyPlatform : Platform where
  parse := urlProtocol
  fetch := fun _ call => if call.strategy = .mobile then some hdOnlyHtml else none
  titleText := fun _ => "Clip | Facebook".data
  metaContent := fun _ _ => none

/-! ## Predicates on the accumulators -/

/-- The invariant of the two accumulators: the set holds exactly the URLs of the
array, without repetition, and every URL of the array is valid. -/
structure FoundInv (P : UrlParser) (acc : Found) : Prop where
  /-- The set lists the URLs of the array. -/
  urls : acc.foundUrls = acc.videoUrls.map VideoLink.url
  /-- No URL is recorded twice. -/
  nodup : acc.foundUrls.Nodup
  /-- Every recorded candidate passed the validity check. -/
  valid : ∀ v ∈ acc.videoUrls, isValidVideoUrl P v.url = true

/-- One accumulator state extends another: both lists only grew at the end. -/
def Found.Extends (b a : Found) : Prop :=
  List.IsPrefix a.videoUrls b.videoUrls ∧ List.IsPrefix a.foundUrls b.foundUrls

/-- The position of the first occurrence of `u` in `l`, or the length of `l` when `u`
does not occur. -/
def firstIndexOf (u : JSString) : List JSString → Nat
  | [] => 0
  | x :: l => if x = u then 0 else firstIndexOf u l + 1

instance compareQuality_total : IsTotal VideoLink (fun a b => compareQuality a b ≤ 0) :=
  ⟨fun a b => by unfold compareQuality; omega⟩

instance compareQuality_trans : IsTrans VideoLink (fun a b => compareQuality a b ≤ 0) :=
  ⟨fun a b c => by unfold compareQuality; omega⟩

/-! ## The candidate list: invariants and ranking -/

theorem foundInv_push (P : UrlParser) (acc : Found) (v : VideoLink) (h : FoundInv P acc)
    (hv : isValidVideoUrl P v.url = true) (hn : v.url ∉ acc.foundUrls) :
    FoundInv P { foundUrls := acc.foundUrls ++ [v.url], videoUrls := acc.videoUrls ++ [v] } := by
  refine ⟨?_, ?_, ?_⟩
  · simp [h.urls]
  · exact List.Nodup.append h.nodup (List.nodup_singleton _) (by simpa using hn)
  · intro w hw
    rcases List.mem_append.1 hw with hw | hw
    · exact h.valid w hw
    · rw [List.mem_singleton.1 hw]; exact hv

theorem ruleStep_inv (P : UrlParser) (source : JSString) (acc : Found) (raw : JSString)
    (h : FoundInv P acc) : FoundInv P (ruleStep P source acc raw) := by
  unfold ruleStep
  dsimp only
  split
  · next hc =>
    simp only [Bool.and_eq_true, Bool.not_eq_true', decide_eq_false_iff_not] at hc
    exact foundInv_push P acc
      { quality := (classify source (cleanRuleUrl raw)).1, format := "MP4".data,
        size := (classify source (cleanRuleUrl raw)).2, url := cleanRuleUrl raw } h hc.1 hc.2
  · exact h

theorem jsonStep_inv (P : UrlParser) (acc : Found) (raw : JSString)
    (h : FoundInv P acc) : FoundInv P (jsonStep P acc raw) := by
  unfold jsonStep
  dsimp only
  split
  · next hc =>
    simp only [Bool.and_eq_true, Bool.not_eq_true', decide_eq_false_iff_not] at hc
    exact foundInv_push P acc
      { quality := "Standard".data, format := "MP4".data, size := "~30MB".data,
        url := cleanJsonUrl raw } h hc.1 hc.2
  · exact h

theorem foldl_inv {α : Type} (P : UrlParser) (f : Found → α → Found)
    (hf : ∀ acc a, FoundInv P acc → FoundInv P (f acc a)) (l : List α) (acc : Found)
    (h : FoundInv P acc) : FoundInv P (l.foldl f acc) := by
  induction l generalizing acc with
  | nil => exact h
  | cons a l ih => exact ih (f acc a) (hf acc a h)

theorem runRule_inv (P : UrlParser) (html : JSString) (acc : Found) (rule : Rule)
    (h : FoundInv P acc) : FoundInv P (runRule P html acc rule) :=
  foldl_inv P (ruleStep P rule.source) (ruleStep_inv P rule.source) _ acc h

theorem rulePass_inv (P : UrlParser) (html : JSString) : FoundInv P (rulePass P html) :=
  foldl_inv P (runRule P html) (runRule_inv P html) _ _
    ⟨rfl, List.nodup_nil, fun _ hv => absurd hv (List.not_mem_nil _)⟩

theorem discovered_inv (P : UrlParser) (html : JSString) :
    FoundInv P ((execAll jsonPattern html).foldl (jsonStep P) (rulePass P html)) :=
  foldl_inv P (jsonStep P) (jsonStep_inv P) _ _ (rulePass_inv P html)

theorem extract_perm (P : UrlParser) (html : JSString) :
    (extractVideoUrlsFromHtml P html).Perm (discovered P html) :=
  List.perm_insertionSort _ _

theorem extract_sorted (P : UrlParser) (html : JSString) :
    (extractVideoUrlsFromHtml P html).Sorted (fun a b => compareQuality a b ≤ 0) :=
  List.sorted_insertionSort _ _

theorem extract_filter_tier (P : UrlParser) (html : JSString) (t : Int) :
    (extractVideoUrlsFromHtml P html).filter (fun v => decide (tier v = t)) =
      (discovered P html).filter (fun v => decide (tier v = t)) := by
  have hsub : List.Sublist ((discovered P html).filter (fun v => decide (tier v = t)))
      (extractVideoUrlsFromHtml P html) := by
    refine List.sublist_insertionSort ?_ (List.filter_sublist _)
    rw [List.pairwise_iff_forall_sublist]
    intro a b hab
    have ha := hab.subset (List.mem_cons_self a [b])
    have hb := hab.subset (List.mem_cons_of_mem a (List.mem_singleton_self b))
    simp only [List.mem_filter, decide_eq_true_eq] at ha hb
    unfold compareQuality
    omega
  have hsub2 := hsub.filter (fun v => decide (tier v = t))
  rw [List.filter_filter] at hsub2
  simp only [Bool.and_self] at hsub2
  have hlen := ((extract_perm P html).filter (fun v => decide (tier v = t))).length_eq
  exact (hsub2.eq_of_length hlen.symm).symm

/-! ## Lemmas on the string built-ins -/

theorem includes_iff_occurs (s w : JSString) : includes s w = true ↔ List.IsInfix w s := by
  induction s with
  | nil =>
    cases w with
    | nil => simp [includes, List.isPrefixOf]
    | cons c w => simp [includes, List.isPrefixOf]
  | cons x t ih =>
    rw [includes, Bool.or_eq_true, ih, List.isPrefixOf_iff_prefix, List.infix_cons_iff]

theorem includes_false_of_not_mem (c : Char) (s w : JSString) (hw : c ∈ w) (hs : c ∉ s) :
    includes s w = false := by
  rw [Bool.eq_false_iff]
  intro h
  rw [includes_iff_occurs] at h
  exact hs (h.subset hw)

theorem includes_trans (s w v : JSString) (hv : includes w v = true) (hw : includes s w = true) :
    includes s v = true := by
  rw [includes_iff_occurs] at *
  exact hv.trans hw

theorem isDigit_ne (c x : Char) (hc : isDigit c = true) (hx : isDigit x = false) : c ≠ x := by
  rintro rfl
  rw [hc] at hx
  exact Bool.noConfusion hx

/-! ## Lemmas on regular-expression matching -/

theorem matchHere_lits (w : JSString) (r : Regex) (acc s : JSString) (x : JSString × JSString)
    (h : matchHere (lits w ++ r) false acc s = some x) :
    ∃ s1, s = w ++ s1 ∧ matchHere r false acc s1 = some x := by
  induction w generalizing s with
  | nil => exact ⟨s, rfl, h⟩
  | cons c w ih =>
    cases s with
    | nil => simp [lits, matchHere] at h
    | cons y t =>
      simp only [lits, List.map_cons, List.cons_append, matchHere, pushCap] at h
      by_cases hy : y = c
      · simp only [hy, if_true] at h
        obtain ⟨s1, hs1, hm⟩ := ih t h
        exact ⟨s1, by rw [hy, hs1]; rfl, hm⟩
      · simp [hy] at h

theorem matchHere_lits_append (w : JSString) (r : Regex) (acc s : JSString) :
    matchHere (lits w ++ r) false acc (w ++ s) = matchHere r false acc s := by
  induction w with
  | nil => rfl
  | cons c w ih => simpa [lits, matchHere, pushCap] using ih

theorem regexMatch_some (re : Regex) (s : JSString) (x : JSString × JSString)
    (h : regexMatch re s = some x) :
    ∃ a b, s = a ++ b ∧ matchHere re false [] b = some x := by
  induction s with
  | nil => exact ⟨[], [], rfl, h⟩
  | cons c t ih =>
    rw [regexMatch] at h
    cases hm : matchHere re false [] (c :: t) with
    | some r =>
      rw [hm] at h
      exact ⟨[], c :: t, rfl, by rw [hm]; exact h⟩
    | none =>
      rw [hm] at h
      obtain ⟨a, b, hab, hb⟩ := ih h
      exact ⟨c :: a, b, by rw [hab]; rfl, hb⟩

theorem regexMatch_lits_includes (w : JSString) (r : Regex) (s : JSString)
    (x : JSString × JSString) (h : regexMatch (lits w ++ r) s = some x) :
    includes s w = true := by
  obtain ⟨a, b, hab, hb⟩ := regexMatch_some _ _ _ h
  obtain ⟨s1, hs1, _⟩ := matchHere_lits w r [] b x hb
  rw [includes_iff_occurs]
  exact ⟨a, s1, by rw [hab, hs1, List.append_assoc]⟩

theorem regexMatch_none_of_not_includes (w : JSString) (r : Regex) (s : JSString)
    (h : includes s w = false) : regexMatch (lits w ++ r) s = none := by
  cases hm : regexMatch (lits w ++ r) s with
  | none => rfl
  | some x => rw [regexMatch_lits_includes w r s x hm] at h; exact Bool.noConfusion h

theorem greedy_run (p : Char → Bool) (k : JSString → JSString → Option (JSString × JSString))
    (run rest : JSString) (min : Nat) (acc : JSString) (r : JSString × JSString)
    (hrun : ∀ c ∈ run, p c = true) (hrest : ∀ c ∈ rest.head?, p c = false)
    (hmin : min ≤ run.length) (hk : k (acc ++ run) rest = some r) :
    greedy p true k min acc (run ++ rest) = some r := by
  induction run generalizing min acc with
  | nil =>
    have hmin0 : min = 0 := by simpa using hmin
    subst hmin0
    cases rest with
    | nil => simpa [greedy] using hk
    | cons c t =>
      have hc : p c = false := hrest c (by simp)
      simpa [greedy, hc] using hk
  | cons x run ih =>
    have hx : p x = true := hrun x (List.mem_cons_self _ _)
    have hrec := ih (min - 1) (acc ++ [x]) (fun c hc => hrun c (List.mem_cons_of_mem _ hc))
      (by simp only [List.length_cons] at hmin; omega) (by simpa using hk)
    simp [greedy, hx, pushCap, hrec]

theorem greedy_capture_length (p : Char → Bool) (s : JSString) (min : Nat) (acc : JSString)
    (x : JSString × JSString)
    (h : greedy p true (fun acc1 s1 => matchHere [Atom.gClose] true acc1 s1) min acc s = some x) :
    acc.length + min ≤ x.1.length := by
  induction s generalizing min acc with
  | nil =>
    by_cases hm : min = 0
    · simp [greedy, hm, matchHere] at h
      rw [← h, hm]; simp
    · simp [greedy, hm] at h
  | cons c t ih =>
    rw [greedy] at h
    by_cases hp : p c = true
    · rw [if_pos hp] at h
      cases hg : greedy p true (fun acc1 s1 => matchHere [Atom.gClose] true acc1 s1) (min - 1)
          (pushCap true acc c) t with
      | some y =>
        rw [hg] at h
        have hxy : y = x := by simpa using h
        subst hxy
        have := ih (min - 1) (pushCap true acc c) hg
        simp only [pushCap, if_true, List.length_append, List.length_singleton] at this
        omega
      | none =>
        rw [hg] at h
        by_cases hm : min = 0
        · simp [hm, matchHere] at h
          rw [← h, hm]; simp
        · simp [hm] at h
    · rw [if_neg hp] at h
      by_cases hm : min = 0
      · simp [hm, matchHere] at h
        rw [← h, hm]; simp
      · simp [hm] at h

theorem regexMatch_of_matchHere (re : Regex) (s : JSString) (x : JSString × JSString)
    (h : matchHere re false [] s = some x) : regexMatch re s = some x := by
  cases s with
  | nil => exact h
  | cons c t => rw [regexMatch, h]

theorem regexMatch_skip_head (x : Char) (w : JSString) (r : Regex) (pre s : JSString)
    (h : ∀ c ∈ pre, c ≠ x) :
    regexMatch (lits (x :: w) ++ r) (pre ++ s) = regexMatch (lits (x :: w) ++ r) s := by
  induction pre with
  | nil => rfl
  | cons c t ih =>
    have hc : c ≠ x := h c (List.mem_cons_self _ _)
    rw [List.cons_append, regexMatch]
    have hm : matchHere (lits (x :: w) ++ r) false [] (c :: (t ++ s)) = none := by
      simp [lits, matchHere, hc]
    rw [hm]
    exact ih (fun y hy => h y (List.mem_cons_of_mem _ hy))

theorem isIdChar_ne_dot (c : Char) (hc : isIdChar c = true) : c ≠ '.' := by
  rintro rfl
  exact absurd hc (by decide)

theorem extractVideoId_fbWatch (id : JSString) (hne : id ≠ [])
    (hid : ∀ c ∈ id, isIdChar c = true) :
    extractVideoId ("https://fb.watch/".data ++ id ++ "/".data) = some id := by
  have hdot : '.' ∉ id ++ "/".data := by
    intro h
    rcases List.mem_append.1 h with h | h
    · exact isIdChar_ne_dot _ (hid _ h) rfl
    · simp at h
  have h1 : regexMatch videosPattern ("https://fb.watch/".data ++ id ++ "/".data) = none := by
    unfold videosPattern
    rw [List.append_assoc, List.append_assoc]
    apply regexMatch_none_of_not_includes
    simp [includes, List.isPrefixOf]
    exact includes_false_of_not_mem '.' _ _ (by simp) hdot
  have h2 : regexMatch fbWatchPattern ("https://fb.watch/".data ++ id ++ "/".data) =
      some (id, "/".data) := by
    have hm : matchHere fbWatchPattern false [] ("fb.watch/".data ++ (id ++ "/".data)) =
        some (id, "/".data) := by
      unfold fbWatchPattern
      rw [matchHere_lits_append]
      simp only [matchHere]
      apply greedy_run
      · exact hid
      · simp; decide
      · cases id with
        | nil => exact absurd rfl hne
        | cons c t => simp
      · simp [matchHere]
    have hu : "https://fb.watch/".data ++ id ++ "/".data =
        "https://".data ++ ("fb.watch/".data ++ (id ++ "/".data)) := by simp
    rw [hu]
    have hskip := regexMatch_skip_head 'f' "b.watch/".data
      [.gOpen, .many isIdChar 1, .gClose] "https://".data
      ("fb.watch/".data ++ (id ++ "/".data)) (by decide)
    exact hskip.trans (regexMatch_of_matchHere _ _ _ hm)
  simp only [extractVideoId, idPatterns, List.findSome?_cons, h1, h2, Option.map_none',
    Option.map_some']

theorem normalizeUrl_fbWatch (id : JSString) (hne : id ≠ [])
    (hid : ∀ c ∈ id, isIdChar c = true) :
    normalizeUrl ("https://fb.watch/".data ++ id ++ "/".data) =
      "https://www.facebook.com/watch/?v=".data ++ id := by
  have hinc : includes ("https://fb.watch/".data ++ id ++ "/".data) "fb.watch".data = true := by
    simp [includes, List.isPrefixOf]
  unfold normalizeUrl
  rw [if_pos hinc, extractVideoId_fbWatch id hne hid]
  cases id with
  | nil => exact absurd rfl hne
  | cons c t => rfl

theorem normalizeUrl_unrecognized (u : JSString) (h1 : includes u "fb.watch".data = false)
    (h2 : includes u "m.facebook.com".data = false) (h3 : includes u "/reel/".data = false) :
    normalizeUrl u = u := by
  simp [normalizeUrl, normalizeMobile, normalizeReel, h1, h2, h3]

theorem not_mem_of_digits (d : JSString) (x : Char) (hd : ∀ c ∈ d, isDigit c = true)
    (hx : isDigit x = false) : x ∉ d := fun h => isDigit_ne x x (hd x h) hx rfl

theorem normalizeUrl_canonical (d : JSString) (hd : ∀ c ∈ d, isDigit c = true) :
    normalizeUrl ("https://www.facebook.com/watch/?v=".data ++ d) =
      "https://www.facebook.com/watch/?v=".data ++ d := by
  apply normalizeUrl_unrecognized
  · simp [includes, List.isPrefixOf]
    exact includes_false_of_not_mem 'f' _ _ (by simp) (not_mem_of_digits d 'f' hd (by decide))
  · simp [includes, List.isPrefixOf]
    exact includes_false_of_not_mem 'm' _ _ (by simp) (not_mem_of_digits d 'm' hd (by decide))
  · simp [includes, List.isPrefixOf]
    exact includes_false_of_not_mem '/' _ _ (by simp) (not_mem_of_digits d '/' hd (by decide))

theorem normalizeUrl_mobile_of_no_id (u : JSString)
    (hfb : includes u "fb.watch".data = false ∨ extractVideoId u = none)
    (hm : includes u "m.facebook.com".data = true) :
    normalizeUrl u = replaceFirst "m.facebook.com".data "www.facebook.com".data u := by
  unfold normalizeUrl
  rcases hfb with hfb | hfb
  · simp [hfb, normalizeMobile, hm]
  · simp [hfb, truthyId, normalizeMobile, hm]

theorem normalizeUrl_mobile_https (rest : JSString)
    (hfb : includes ("https://".data ++ "m.facebook.com".data ++ rest) "fb.watch".data = false ∨
      extractVideoId ("https://".data ++ "m.facebook.com".data ++ rest) = none) :
    normalizeUrl ("https://".data ++ "m.facebook.com".data ++ rest) =
      "https://".data ++ "www.facebook.com".data ++ rest := by
  rw [normalizeUrl_mobile_of_no_id _ hfb (by simp [includes, List.isPrefixOf])]
  simp [replaceFirst, List.isPrefixOf]

theorem normalizeUrl_mobile_http (rest : JSString)
    (hfb : includes ("http://".data ++ "m.facebook.com".data ++ rest) "fb.watch".data = false ∨
      extractVideoId ("http://".data ++ "m.facebook.com".data ++ rest) = none) :
    normalizeUrl ("http://".data ++ "m.facebook.com".data ++ rest) =
      "http://".data ++ "www.facebook.com".data ++ rest := by
  rw [normalizeUrl_mobile_of_no_id _ hfb (by simp [includes, List.isPrefixOf])]
  simp [replaceFirst, List.isPrefixOf]

theorem reel_capture_ne_nil (u d rest : JSString)
    (h : regexMatch reelPattern u = some (d, rest)) : d ≠ [] := by
  obtain ⟨a, b, _, hb⟩ := regexMatch_some _ _ _ h
  obtain ⟨s1, _, hm⟩ := matchHere_lits _ _ _ _ _ hb
  simp only [matchHere] at hm
  have hlen := greedy_capture_length _ _ _ _ _ hm
  intro hd
  rw [hd] at hlen
  simp at hlen

theorem extractVideoId_reel (u d rest : JSString)
    (hreel : regexMatch reelPattern u = some (d, rest))
    (hfb : includes u "fb.watch".data = false)
    (hearlier : ∀ re ∈ [videosPattern, watchPattern, postsPattern, videoPhpPattern,
      videosVbPattern], regexMatch re u = none) :
    extractVideoId u = some d := by
  have h1 := hearlier videosPattern (by simp)
  have h3 := hearlier watchPattern (by simp)
  have h4 := hearlier postsPattern (by simp)
  have h5 := hearlier videoPhpPattern (by simp)
  have h6 := hearlier videosVbPattern (by simp)
  have h2 : regexMatch fbWatchPattern u = none := by
    apply regexMatch_none_of_not_includes
    rw [Bool.eq_false_iff]
    intro hc
    rw [includes_trans u "fb.watch/".data "fb.watch".data (by decide) hc] at hfb
    exact Bool.noConfusion hfb
  simp only [extractVideoId, idPatterns, List.findSome?_cons, h1, h2, h3, h4, h5, h6, hreel,
    Option.map_none', Option.map_some']

theorem normalizeUrl_reel (u d rest : JSString)
    (hreel : regexMatch reelPattern u = some (d, rest))
    (hfb : includes u "fb.watch".data = false)
    (hm : includes u "m.facebook.com".data = false)
    (hearlier : ∀ re ∈ [videosPattern, watchPattern, postsPattern, videoPhpPattern,
      videosVbPattern], regexMatch re u = none) :
    normalizeUrl u = "https://www.facebook.com/watch/?v=".data ++ d := by
  have hinc : includes u "/reel/".data = true :=
    includes_trans u "facebook.com/reel/".data "/reel/".data (by decide)
      (regexMatch_lits_includes _ _ _ _ hreel)
  have hne := reel_capture_ne_nil u d rest hreel
  unfold normalizeUrl normalizeMobile normalizeReel
  rw [if_neg (by simp [hfb]), if_neg (by simp [hm]), if_pos hinc,
    extractVideoId_reel u d rest hreel hfb hearlier]
  cases d with
  | nil => exact absurd rfl hne
  | cons c t => rfl

/-! ## Lemmas on `isValidVideoUrl` and the URL model -/

theorem length_le_jsLength (s : JSString) : s.length ≤ jsLength s := by
  induction s with
  | nil => simp [jsLength]
  | cons c t ih =>
    simp only [jsLength, List.map_cons, List.sum_cons, List.length_cons] at ih ⊢
    split <;> omega

theorem length_of_includes_colon (u w : JSString) (hw : includes u w = true) (hc : ':' ∉ w)
    (hu : ':' ∈ u) : w.length + 1 ≤ u.length := by
  rw [includes_iff_occurs] at hw
  obtain ⟨a, b, hab⟩ := hw
  rw [← hab] at hu ⊢
  simp only [List.mem_append, List.length_append] at hu ⊢
  rcases hu with (hu | hu) | hu
  · have := List.length_pos_of_mem hu; omega
  · exact absurd hu hc
  · have := List.length_pos_of_mem hu; omega

theorem jsLength_of_validDomain (u : JSString) (hd : hasValidDomain u = true) (hu : ':' ∈ u) :
    10 ≤ jsLength u := by
  unfold hasValidDomain at hd
  rw [List.any_eq_true] at hd
  obtain ⟨w, hw, hinc⟩ := hd
  have hlen : 9 ≤ w.length ∧ ':' ∉ w := by
    simp only [validDomains, List.mem_cons, List.mem_singleton, List.not_mem_nil, or_false] at hw
    rcases hw with rfl | rfl | rfl | rfl | rfl <;> decide
  have := length_of_includes_colon u w hinc hlen.2 hu
  have := length_le_jsLength u
  omega

theorem isValidVideoUrl_iff_of_colon (P : UrlParser)
    (hP : ∀ s proto, P s = some proto → ':' ∈ s) (u : JSString) :
    isValidVideoUrl P u = true ↔
      (∃ proto, P u = some proto ∧ startsWith proto "http".data = true) ∧
        hasValidDomain u = true ∧ hasVideoIndicators u = true := by
  constructor
  · intro h
    unfold isValidVideoUrl at h
    split at h
    · exact Bool.noConfusion h
    · split at h
      · exact Bool.noConfusion h
      · next proto hp =>
        simp only [Bool.and_eq_true] at h
        exact ⟨⟨proto, hp, h.2⟩, h.1.1, h.1.2⟩
  · rintro ⟨⟨proto, hp, hs⟩, hd, hi⟩
    have hlen := jsLength_of_validDomain u hd (hP u proto hp)
    unfold isValidVideoUrl
    rw [if_neg (by omega), hp]
    simp [hd, hi, hs]

theorem schemeRest_colon (acc t : JSString) (x : JSString × JSString)
    (h : schemeRest acc t = some x) : ':' ∈ t := by
  induction t generalizing acc with
  | nil => simp [schemeRest] at h
  | cons c t ih =>
    rw [schemeRest] at h
    split at h
    · exact List.mem_cons_of_mem _ (ih _ h)
    · split at h
      · next hc => rw [hc]; exact List.mem_cons_self _ _
      · exact Option.noConfusion h

theorem parseScheme_colon (s : JSString) (x : JSString × JSString)
    (h : parseScheme s = some x) : ':' ∈ s := by
  cases s with
  | nil => simp [parseScheme] at h
  | cons c t =>
    rw [parseScheme] at h
    split at h
    · exact List.mem_cons_of_mem _ (schemeRest_colon _ _ _ h)
    · exact Option.noConfusion h

theorem urlPreprocess_subset (s : JSString) (c : Char) (h : c ∈ urlPreprocess s) : c ∈ s := by
  unfold urlPreprocess at h
  have h1 := (List.mem_filter.1 h).1
  have h2 := (List.dropWhile_sublist _).subset (List.mem_reverse.1 h1)
  exact (List.dropWhile_sublist _).subset (List.mem_reverse.1 h2)

theorem urlProtocol_colon (s proto : JSString) (h : urlProtocol s = some proto) : ':' ∈ s := by
  unfold urlProtocol at h
  split at h
  · next scheme rest hp => exact urlPreprocess_subset s ':' (parseScheme_colon _ _ hp)
  · exact Option.noConfusion h

/-! ## Lemmas on discovery order -/

theorem Found.extends_refl (a : Found) : a.Extends a :=
  ⟨List.prefix_refl _, List.prefix_refl _⟩

theorem Found.extends_trans {a b c : Found} (hcb : c.Extends b) (hba : b.Extends a) :
    c.Extends a :=
  ⟨hba.1.trans hcb.1, hba.2.trans hcb.2⟩

theorem ruleStep_extends (P : UrlParser) (source : JSString) (acc : Found) (raw : JSString) :
    (ruleStep P source acc raw).Extends acc := by
  unfold ruleStep
  dsimp only
  split
  · exact ⟨List.prefix_append _ _, List.prefix_append _ _⟩
  · exact Found.extends_refl acc

theorem jsonStep_extends (P : UrlParser) (acc : Found) (raw : JSString) :
    (jsonStep P acc raw).Extends acc := by
  unfold jsonStep
  dsimp only
  split
  · exact ⟨List.prefix_append _ _, List.prefix_append _ _⟩
  · exact Found.extends_refl acc

theorem foldl_extends {α : Type} (f : Found → α → Found)
    (hf : ∀ acc a, (f acc a).Extends acc) (l : List α) (acc : Found) :
    (l.foldl f acc).Extends acc := by
  induction l generalizing acc with
  | nil => exact Found.extends_refl acc
  | cons a l ih => exact Found.extends_trans (ih (f acc a)) (hf acc a)

theorem runRule_extends (P : UrlParser) (html : JSString) (acc : Found) (rule : Rule) :
    (runRule P html acc rule).Extends acc :=
  foldl_extends (ruleStep P rule.source) (ruleStep_extends P rule.source) _ acc

theorem ruleStep_found (P : UrlParser) (source : JSString) (acc : Found) (raw : JSString)
    (hv : isValidVideoUrl P (cleanRuleUrl raw) = true) :
    cleanRuleUrl raw ∈ (ruleStep P source acc raw).foundUrls := by
  unfold ruleStep
  dsimp only
  split
  · simp
  · next hc =>
    simp only [hv, Bool.true_and, Bool.not_eq_true', decide_eq_false_iff_not, not_not] at hc
    exact hc

theorem foldl_ruleStep_found (P : UrlParser) (source : JSString) (raws : List JSString)
    (acc : Found) (u : JSString) (hu : u ∈ raws.map cleanRuleUrl)
    (hv : isValidVideoUrl P u = true) :
    u ∈ (raws.foldl (ruleStep P source) acc).foundUrls := by
  induction raws generalizing acc with
  | nil => simp at hu
  | cons raw raws ih =>
    rw [List.map_cons, List.mem_cons] at hu
    rw [List.foldl_cons]
    rcases hu with hu | hu
    · have h1 := ruleStep_found P source acc raw (hu ▸ hv)
      rw [← hu] at h1
      exact (foldl_extends (ruleStep P source) (ruleStep_extends P source) raws _).2.subset h1
    · exact ih _ hu

theorem foldl_runRule_found (P : UrlParser) (html : JSString) (rules : List Rule)
    (acc : Found) (rule : Rule) (hr : rule ∈ rules) (u : JSString)
    (hu : u ∈ (execAll rule.re html).map cleanRuleUrl) (hv : isValidVideoUrl P u = true) :
    u ∈ (rules.foldl (runRule P html) acc).foundUrls := by
  induction rules generalizing acc with
  | nil => simp at hr
  | cons r rules ih =>
    rw [List.foldl_cons]
    rcases List.mem_cons.1 hr with hr | hr
    · have h1 : u ∈ (runRule P html acc r).foundUrls := by
        rw [← hr]; exact foldl_ruleStep_found P rule.source _ acc u hu hv
      exact (foldl_extends (runRule P html) (runRule_extends P html) rules _).2.subset h1
    · exact ih _ hr

/-- The first rule's candidates: every one carries the label of `source`, the
candidate of `u1` is present, and no candidate up to it has the URL `u2`. -/
theorem foldl_ruleStep_order (P : UrlParser) (source : JSString) (raws : List JSString)
    (acc : Found) (u1 u2 : JSString) (hv : isValidVideoUrl P u1 = true)
    (hurls : acc.foundUrls = acc.videoUrls.map VideoLink.url)
    (hq : ∀ v ∈ acc.videoUrls, v.quality = (classify source v.url).1)
    (hacc : u2 ∉ acc.foundUrls)
    (hord : firstIndexOf u1 (raws.map cleanRuleUrl) < firstIndexOf u2 (raws.map cleanRuleUrl)) :
    ∃ pre c1 post, (raws.foldl (ruleStep P source) acc).videoUrls = pre ++ c1 :: post ∧
      c1.url = u1 ∧ c1.quality = (classify source u1).1 ∧ ∀ v ∈ pre, v.url ≠ u2 := by
  induction raws generalizing acc with
  | nil => simp [firstIndexOf] at hord
  | cons raw raws ih =>
    rw [List.foldl_cons]
    rw [List.map_cons] at hord
    have hne2 : cleanRuleUrl raw ≠ u2 := by
      intro h
      simp [firstIndexOf, h] at hord
    have hstep_urls : (ruleStep P source acc raw).foundUrls =
        (ruleStep P source acc raw).videoUrls.map VideoLink.url := by
      unfold ruleStep; dsimp only; split
      · simp [hurls]
      · exact hurls
    have hstep_q : ∀ v ∈ (ruleStep P source acc raw).videoUrls,
        v.quality = (classify source v.url).1 := by
      unfold ruleStep; dsimp only; split
      · intro v hvm
        rcases List.mem_append.1 hvm with hvm | hvm
        · exact hq v hvm
        · rw [List.mem_singleton.1 hvm]
      · exact hq
    have hstep_acc : u2 ∉ (ruleStep P source acc raw).foundUrls := by
      unfold ruleStep; dsimp only; split
      · simp [hacc, Ne.symm hne2]
      · exact hacc
    by_cases h1 : cleanRuleUrl raw = u1
    · have hmem : u1 ∈ (ruleStep P source acc raw).foundUrls := by
        rw [← h1]; exact ruleStep_found P source acc raw (h1 ▸ hv)
      rw [hstep_urls, List.mem_map] at hmem
      obtain ⟨c1, hc1, hc1u⟩ := hmem
      obtain ⟨pre, post, hsplit⟩ := List.append_of_mem hc1
      obtain ⟨ext, hext⟩ :=
        (foldl_extends (ruleStep P source) (ruleStep_extends P source) raws
          (ruleStep P source acc raw)).1
      refine ⟨pre, c1, post ++ ext, ?_, hc1u, ?_, ?_⟩
      · rw [← hext, hsplit]; simp
      · rw [← hc1u]; exact hstep_q c1 hc1
      · intro v hvpre hvu
        apply hstep_acc
        rw [hstep_urls, List.mem_map]
        exact ⟨v, by rw [hsplit]; exact List.mem_append_left _ hvpre, hvu⟩
    · have hord2 : firstIndexOf u1 (raws.map cleanRuleUrl) <
          firstIndexOf u2 (raws.map cleanRuleUrl) := by
        simp only [firstIndexOf, if_neg h1, if_neg hne2] at hord
        omega
      exact ih _ hstep_urls hstep_q hstep_acc hord2

theorem tier_le_three (v : VideoLink) : tier v ≤ 3 := by
  unfold tier qualityOrder
  split_ifs <;> omega

theorem classify_hd_source (source url : JSString) (h : includes source "hd".data = true) :
    (classify source url).1 = "HD (720p)".data := by
  unfold classify
  simp [h]

theorem hd_before_sd_discovered (P : UrlParser) (html u1 u2 : JSString)
    (hne : u1 ≠ u2)
    (hv1 : isValidVideoUrl P u1 = true) (hv2 : isValidVideoUrl P u2 = true)
    (h2 : u2 ∈ (execAll (quotedRule "sd_src".data).re html).map cleanRuleUrl)
    (hord : firstIndexOf u1 ((execAll (quotedRule "hd_src".data).re html).map cleanRuleUrl) <
      firstIndexOf u2 ((execAll (quotedRule "hd_src".data).re html).map cleanRuleUrl)) :
    ∃ c1 c2, c1.url = u1 ∧ c2.url = u2 ∧ c1.quality = "HD (720p)".data ∧
      List.Sublist [c1, c2] (discovered P html) := by
  obtain ⟨pre, c1, post, hsplit, hc1u, hc1q, hpre⟩ :=
    foldl_ruleStep_order P (quotedRule "hd_src".data).source
      (execAll (quotedRule "hd_src".data).re html) { videoUrls := [], foundUrls := [] } u1 u2 hv1
      rfl (fun v hv => absurd hv (List.not_mem_nil _)) (List.not_mem_nil _) hord
  have hrule : rulePass P html = (patterns.tail).foldl (runRule P html)
      (runRule P html { videoUrls := [], foundUrls := [] } (quotedRule "hd_src".data)) := rfl
  have hext1 : (rulePass P html).Extends
      (runRule P html { videoUrls := [], foundUrls := [] } (quotedRule "hd_src".data)) := by
    rw [hrule]
    exact foldl_extends (runRule P html) (runRule_extends P html) _ _
  have hext2 := foldl_extends (jsonStep P) (jsonStep_extends P) (execAll jsonPattern html)
    (rulePass P html)
  obtain ⟨ext, hext⟩ := (Found.extends_trans hext2 hext1).1
  have hdisc : discovered P html = pre ++ c1 :: (post ++ ext) := by
    unfold discovered
    rw [← hext]
    unfold runRule
    rw [hsplit]
    simp
  have hfound : u2 ∈ (rulePass P html).foundUrls :=
    foldl_runRule_found P html patterns _ (quotedRule "sd_src".data) (by simp [patterns]) u2 h2 hv2
  have hfound2 := hext2.2.subset hfound
  rw [(discovered_inv P html).urls, List.mem_map] at hfound2
  obtain ⟨c2, hc2, hc2u⟩ := hfound2
  change c2 ∈ discovered P html at hc2
  rw [hdisc] at hc2
  have hc2rest : c2 ∈ post ++ ext := by
    rcases List.mem_append.1 hc2 with h | h
    · exact absurd hc2u (hpre c2 h)
    · rcases List.mem_cons.1 h with h | h
      · rw [h, hc1u] at hc2u; exact absurd hc2u hne
      · exact h
  refine ⟨c1, c2, hc1u, hc2u, ?_, ?_⟩
  · rw [hc1q]; exact classify_hd_source _ _ (by decide)
  · rw [hdisc]
    exact (List.Sublist.cons₂ c1 (List.singleton_sublist.2 hc2rest)).trans
      (List.sublist_append_right pre _)

theorem hd_before_sd_extract (P : UrlParser) (html u1 u2 : JSString)
    (hne : u1 ≠ u2)
    (hv1 : isValidVideoUrl P u1 = true) (hv2 : isValidVideoUrl P u2 = true)
    (h2 : u2 ∈ (execAll (quotedRule "sd_src".data).re html).map cleanRuleUrl)
    (hord : firstIndexOf u1 ((execAll (quotedRule "hd_src".data).re html).map cleanRuleUrl) <
      firstIndexOf u2 ((execAll (quotedRule "hd_src".data).re html).map cleanRuleUrl)) :
    ∃ c1 c2, c1.url = u1 ∧ c2.url = u2 ∧ firstWord c1.quality = "HD".data ∧
      List.Sublist [c1, c2] (extractVideoUrlsFromHtml P html) := by
  obtain ⟨c1, c2, h1, h2, hq, hsub⟩ := hd_before_sd_discovered P html u1 u2 hne hv1 hv2 h2 hord
  have hw : firstWord c1.quality = "HD".data := by rw [hq]; decide
  refine ⟨c1, c2, h1, h2, hw, ?_⟩
  refine List.sublist_insertionSort ?_ hsub
  rw [List.pairwise_pair]
  have ht1 : tier c1 = 3 := by unfold tier; rw [hw]; decide
  have := tier_le_three c2
  unfold compareQuality
  omega

/-! ## Lemmas on `formatDuration` -/

theorem isDigit_digitChar : ∀ d, d < 10 → isDigit (digitChar d) = true := by decide

theorem digitChar_value : ∀ d, d < 10 → (digitChar d).toNat - 48 = d := by decide

theorem toDecimalAux_digits (fuel n : Nat) (acc : JSString)
    (hacc : ∀ c ∈ acc, isDigit c = true) :
    ∀ c ∈ toDecimalAux fuel n acc, isDigit c = true := by
  induction fuel generalizing n acc with
  | zero => exact hacc
  | succ fuel ih =>
    have hd : isDigit (digitChar (n % 10)) = true := isDigit_digitChar _ (Nat.mod_lt _ (by omega))
    have hacc2 : ∀ c ∈ digitChar (n % 10) :: acc, isDigit c = true := by
      intro c hc
      rcases List.mem_cons.1 hc with rfl | hc
      · exact hd
      · exact hacc c hc
    rw [toDecimalAux]
    split
    · exact hacc2
    · exact ih _ _ hacc2

theorem toDecimalAux_ne_nil (fuel n : Nat) (acc : JSString) (h : 0 < fuel ∨ acc ≠ []) :
    toDecimalAux fuel n acc ≠ [] := by
  induction fuel generalizing n acc with
  | zero =>
    rcases h with h | h
    · omega
    · exact h
  | succ fuel ih =>
    rw [toDecimalAux]
    split
    · exact List.cons_ne_nil _ _
    · exact ih _ _ (Or.inr (List.cons_ne_nil _ _))

theorem toDecimalAux_value (fuel n : Nat) (acc : JSString) (h : n < fuel) :
    decimalValue (toDecimalAux fuel n acc) =
      acc.foldl (fun m c => 10 * m + (c.toNat - 48)) n := by
  induction fuel generalizing n acc with
  | zero => omega
  | succ fuel ih =>
    have hv := digitChar_value (n % 10) (Nat.mod_lt _ (by omega))
    rw [toDecimalAux]
    split
    · next h0 =>
      have hn : n % 10 = n := by omega
      rw [hn] at hv
      simp only [decimalValue, List.foldl_cons, hn, Nat.mul_zero, Nat.zero_add, hv]
    · next h0 =>
      rw [ih (n / 10) _ (by omega)]
      simp only [List.foldl_cons, hv]
      congr 1
      omega

theorem toDecimal_digits (n : Nat) : ∀ c ∈ toDecimal n, isDigit c = true :=
  toDecimalAux_digits _ _ _ (fun _ h => absurd h (List.not_mem_nil _))

theorem toDecimal_ne_nil (n : Nat) : toDecimal n ≠ [] :=
  toDecimalAux_ne_nil _ _ _ (Or.inl (Nat.succ_pos n))

theorem toDecimal_value (n : Nat) : decimalValue (toDecimal n) = n := by
  unfold toDecimal
  rw [toDecimalAux_value _ _ _ (Nat.lt_succ_self n)]
  rfl

theorem parseDigits_of_digits (t : JSString) (hne : t ≠ [])
    (ht : ∀ c ∈ t, isDigit c = true) : parseDigits t = some (decimalValue t) := by
  have htw : t.takeWhile isDigit = t := List.takeWhile_eq_self_iff.2 ht
  unfold parseDigits
  split
  · next x r =>
    have hx : isDigit x = true := ht x (by simp)
    have hxx : (x = 'x' || x = 'X') = false := by
      rw [Bool.eq_false_iff]
      intro h
      simp only [Bool.or_eq_true, decide_eq_true_eq] at h
      rcases h with rfl | rfl <;> exact absurd hx (by decide)
    simp only [hxx, htw]
    rfl
  · rw [htw]
    cases t with
    | nil => exact absurd rfl hne
    | cons c t => rfl

theorem isDigit_bounds (c : Char) (hc : isDigit c = true) : 48 ≤ c.toNat ∧ c.toNat ≤ 57 := by
  simp only [isDigit, Bool.and_eq_true, decide_eq_true_eq] at hc
  exact ⟨hc.1, hc.2⟩

theorem isDigit_not_space (c : Char) (hc : isDigit c = true) : isStrWhiteSpace c = false := by
  have h := isDigit_bounds c hc
  unfold isStrWhiteSpace
  simp only [Bool.or_eq_false_iff, Bool.and_eq_false_iff, decide_eq_false_iff_not]
  omega

theorem isDigit_not_sign (c : Char) (hc : isDigit c = true) : c ≠ '-' ∧ c ≠ '+' := by
  constructor <;> (rintro rfl; exact absurd hc (by decide))

theorem parseIntString_toDecimal (n : Nat) : parseIntString (toDecimal n) = some (n : Int) := by
  have hne := toDecimal_ne_nil n
  have hd := toDecimal_digits n
  have hp := parseDigits_of_digits _ hne hd
  rw [toDecimal_value] at hp
  unfold parseIntString
  cases ht : toDecimal n with
  | nil => exact absurd ht hne
  | cons c t =>
    rw [ht] at hd hp
    have hc : isDigit c = true := hd c (List.mem_cons_self _ _)
    have hws := isDigit_not_space c hc
    have hsign := isDigit_not_sign c hc
    rw [List.dropWhile_cons_of_neg (by simp [hws])]
    split
    · next heq => exact absurd (List.cons.inj heq).1 hsign.1
    · next heq => exact absurd (List.cons.inj heq).1 hsign.2
    · rw [hp]; rfl

theorem padStart2_toDecimal : ∀ k, k < 60 → padStart2 (toDecimal k) = twoDigits k := by
  decide

theorem intToString_natCast (k : Nat) : intToString (k : Int) = toDecimal k := by
  unfold intToString
  rw [if_neg (by omega)]
  rfl

theorem formatDuration_of_parse (v : JSValue) (n : Nat) (hf : falsy v = false)
    (hz : v ≠ .str "0:00".data) (hp : parseInt v = some (n : Int)) :
    formatDuration v = .str (durationLabel n) := by
  unfold formatDuration
  rw [if_neg (by simp [hf, hz]), hp]
  have hh : ((n : Int) / 3600) = ((n / 3600 : Nat) : Int) := by omega
  have hm : (Int.tmod (n : Int) 3600) / 60 = ((n % 3600 / 60 : Nat) : Int) := by
    rw [Int.tmod_eq_emod (by omega) (by omega)]; omega
  have hs : Int.tmod (n : Int) 60 = ((n % 60 : Nat) : Int) := by
    rw [Int.tmod_eq_emod (by omega) (by omega)]; omega
  simp only [hh, hm, hs, intToString_natCast]
  rw [padStart2_toDecimal _ (by omega : n % 60 < 60),
    padStart2_toDecimal _ (by omega : n % 3600 / 60 < 60)]
  unfold durationLabel
  by_cases h0 : 0 < n / 3600
  · rw [if_pos h0, if_pos (by omega)]
  · rw [if_neg h0, if_neg (by omega)]

/-! ## The matcher finds a match exactly when one exists -/

theorem greedy_isSome (p : Char → Bool) (inCap : Bool)
    (k : JSString → JSString → Option (JSString × JSString)) (K : JSString → Prop)
    (hk : ∀ a t, (k a t).isSome = true ↔ K t) (s : JSString) (min : Nat) (acc : JSString) :
    (greedy p inCap k min acc s).isSome = true ↔
      ∃ run t, s = run ++ t ∧ (∀ c ∈ run, p c = true) ∧ min ≤ run.length ∧ K t := by
  induction s generalizing min acc with
  | nil =>
    rw [greedy]
    constructor
    · intro h
      by_cases hm : min = 0
      · rw [if_pos hm, hk] at h
        exact ⟨[], [], rfl, fun _ hc => absurd hc (List.not_mem_nil _), by simp [hm], h⟩
      · rw [if_neg hm] at h; exact Bool.noConfusion h
    · rintro ⟨run, t, hst, _, hmin, hK⟩
      have hrun : run = [] := (List.append_eq_nil.1 hst.symm).1
      have ht : t = [] := (List.append_eq_nil.1 hst.symm).2
      subst hrun; subst ht
      have hm : min = 0 := by simpa using hmin
      rw [if_pos hm, hk]; exact hK
  | cons c t ih =>
    rw [greedy]
    by_cases hp : p c = true
    · rw [if_pos hp]
      constructor
      · intro h
        cases hg : greedy p inCap k (min - 1) (pushCap inCap acc c) t with
        | some r =>
          obtain ⟨run, t2, hst, hrun, hmin, hK⟩ := (ih (min - 1) (pushCap inCap acc c)).1
            (by rw [hg]; rfl)
          refine ⟨c :: run, t2, by rw [hst]; rfl, ?_, by simp only [List.length_cons]; omega, hK⟩
          intro d hd
          rcases List.mem_cons.1 hd with rfl | hd
          · exact hp
          · exact hrun d hd
        | none =>
          rw [hg] at h
          by_cases hm : min = 0
          · simp only [hm, if_true] at h
            rw [hk] at h
            exact ⟨[], c :: t, rfl, fun _ hc => absurd hc (List.not_mem_nil _), by simp [hm], h⟩
          · simp [hm] at h
      · rintro ⟨run, t2, hst, hrun, hmin, hK⟩
        cases run with
        | nil =>
          have hm : min = 0 := by simpa using hmin
          have ht2 : t2 = c :: t := by simpa using hst.symm
          cases hg : greedy p inCap k (min - 1) (pushCap inCap acc c) t with
          | some r => rfl
          | none =>
            simp only [hm, if_true]
            rw [hk, ← ht2]; exact hK
        | cons d run =>
          have hd : c = d ∧ t = run ++ t2 := by simpa using hst
          have hrec : (greedy p inCap k (min - 1) (pushCap inCap acc c) t).isSome = true :=
            (ih (min - 1) (pushCap inCap acc c)).2
              ⟨run, t2, hd.2, fun x hx => hrun x (List.mem_cons_of_mem _ hx),
                by simp only [List.length_cons] at hmin; omega, hK⟩
          cases hg : greedy p inCap k (min - 1) (pushCap inCap acc c) t with
          | some r => rfl
          | none => rw [hg] at hrec; exact Bool.noConfusion hrec
    · rw [if_neg hp]
      constructor
      · intro h
        by_cases hm : min = 0
        · rw [if_pos hm, hk] at h
          exact ⟨[], c :: t, rfl, fun _ hc => absurd hc (List.not_mem_nil _), by simp [hm], h⟩
        · rw [if_neg hm] at h; exact Bool.noConfusion h
      · rintro ⟨run, t2, hst, hrun, hmin, hK⟩
        cases run with
        | nil =>
          have hm : min = 0 := by simpa using hmin
          have ht2 : t2 = c :: t := by simpa using hst.symm
          rw [if_pos hm, hk, ← ht2]; exact hK
        | cons d run =>
          have hd : c = d ∧ t = run ++ t2 := by simpa using hst
          exact absurd (hd.1 ▸ hrun d (List.mem_cons_self _ _)) hp

theorem matchHere_isSome (r : Regex) (inCap : Bool) (acc s : JSString) :
    (matchHere r inCap acc s).isSome = true ↔ Matches r s := by
  induction r generalizing inCap acc s with
  | nil => simp [matchHere, Matches]
  | cons a r ih =>
    cases a with
    | lit c =>
      cases s with
      | nil => simp [matchHere, Matches]
      | cons x t =>
        simp only [matchHere, Matches]
        by_cases hx : x = c
        · rw [if_pos hx, ih]
          constructor
          · intro h; exact ⟨t, by rw [hx], h⟩
          · rintro ⟨t2, ht2, h⟩
            have : t = t2 := (List.cons.inj ht2).2
            rw [this]; exact h
        · rw [if_neg hx]
          constructor
          · intro h; exact Bool.noConfusion h
          · rintro ⟨t2, ht2, _⟩
            exact absurd (List.cons.inj ht2).1 hx
    | many p min =>
      simp only [matchHere, Matches]
      exact greedy_isSome p inCap _ (Matches r) (fun a t => ih inCap a t) s min acc
    | gOpen => simp only [matchHere, Matches]; exact ih true [] s
    | gClose => simp only [matchHere, Matches]; exact ih false acc s

theorem regexMatch_isSome (r : Regex) (s : JSString) :
    (regexMatch r s).isSome = true ↔ ∃ x y, s = x ++ y ∧ Matches r y := by
  induction s with
  | nil =>
    rw [regexMatch, matchHere_isSome]
    constructor
    · intro h; exact ⟨[], [], rfl, h⟩
    · rintro ⟨x, y, hxy, h⟩
      have : y = [] := (List.append_eq_nil.1 hxy.symm).2
      rw [← this]; exact h
  | cons c t ih =>
    rw [regexMatch]
    cases hm : matchHere r false [] (c :: t) with
    | some res =>
      simp only [Option.isSome_some, true_iff]
      exact ⟨[], c :: t, rfl, (matchHere_isSome r false [] (c :: t)).1 (by rw [hm]; rfl)⟩
    | none =>
      simp only
      rw [ih]
      constructor
      · rintro ⟨x, y, hxy, h⟩
        exact ⟨c :: x, y, by rw [hxy]; rfl, h⟩
      · rintro ⟨x, y, hxy, h⟩
        cases x with
        | nil =>
          have hy : y = c :: t := by simpa using hxy.symm
          have := (matchHere_isSome r false [] (c :: t)).2 (hy ▸ h)
          rw [hm] at this; exact Bool.noConfusion this
        | cons d x =>
          have hd : c = d ∧ t = x ++ y := by simpa using hxy
          exact ⟨x, y, hd.2, h⟩

/-! ## Replacing the mobile host creates no identifier match -/

theorem matches_stripMarks (r : Regex) (s : JSString) : Matches r s ↔ Matches (stripMarks r) s := by
  induction r with
  | nil => exact Iff.rfl
  | cons a r ih =>
    cases a with
    | lit c => exact Iff.rfl
    | many p min => exact Iff.rfl
    | gOpen => simpa only [Matches, stripMarks] using ih
    | gClose => simpa only [Matches, stripMarks] using ih

theorem wSafe_stripMarks (r : Regex) (h : wSafe r = true) : wSafe (stripMarks r) = true := by
  induction r with
  | nil => exact h
  | cons a r ih =>
    cases a with
    | lit c => exact h
    | many p min => exact h
    | gOpen => exact ih h
    | gClose => exact ih h

theorem matches_of_stripMarks_nil (r : Regex) (s : JSString) (h : stripMarks r = []) :
    Matches r s := by
  rw [matches_stripMarks, h]
  trivial

theorem stripMarks_nil_of_inside (r : Regex) (rest : JSString) (j : JSString)
    (hj : j = ['w'] ∨ j = ['w', 'w']) (hs : wSafe r = true) (ht : tailOk r = true)
    (h : Matches r (j ++ '.' :: rest)) : stripMarks r = [] := by
  have hs2 := wSafe_stripMarks r hs
  rw [matches_stripMarks] at h
  unfold tailOk at ht
  cases hr : stripMarks r with
  | nil => rfl
  | cons a r2 =>
    rw [hr] at h hs2 ht
    cases a with
    | many p min => exact Bool.noConfusion ht
    | gOpen => exact Bool.noConfusion ht
    | gClose => exact Bool.noConfusion ht
    | lit x =>
      exfalso
      obtain ⟨t, hst, hm⟩ := h
      have hx : x = 'w' := by
        rcases hj with rfl | rfl <;> exact ((List.cons.inj hst).1).symm
      subst hx
      cases r2 with
      | nil => simp [wSafe] at hs2
      | cons b r3 =>
        cases b with
        | many p min => simp [wSafe] at hs2
        | gOpen => simp [wSafe] at hs2
        | gClose => simp [wSafe] at hs2
        | lit y =>
          simp only [wSafe, bne_self_eq_false, Bool.false_or, Bool.and_eq_true, bne_iff_ne,
            ne_eq] at hs2
          obtain ⟨t2, hst2, _⟩ := hm
          rcases hj with rfl | rfl
          · have ht : t = '.' :: rest := ((List.cons.inj hst).2).symm
            rw [ht] at hst2
            exact hs2.1.2 ((List.cons.inj hst2).1).symm
          · have ht : t = 'w' :: '.' :: rest := ((List.cons.inj hst).2).symm
            rw [ht] at hst2
            exact hs2.1.1 ((List.cons.inj hst2).1).symm

theorem matches_transfer (r : Regex) (rest : JSString) (hs : wSafe r = true) (a : JSString)
    (h : Matches r (a ++ ('w' :: 'w' :: 'w' :: '.' :: rest))) :
    Matches r (a ++ ('m' :: '.' :: rest)) := by
  induction r generalizing a with
  | nil => trivial
  | cons atom r ih =>
    cases atom with
    | gOpen => exact ih hs a h
    | gClose => exact ih hs a h
    | lit x =>
      obtain ⟨t, hst, hm⟩ := h
      have hsr : wSafe r = true := by
        simp only [wSafe, Bool.and_eq_true] at hs; exact hs.2
      cases a with
      | nil =>
        exfalso
        have hx : x = 'w' := ((List.cons.inj hst).1).symm
        have ht : t = 'w' :: 'w' :: '.' :: rest := ((List.cons.inj hst).2).symm
        subst hx
        cases r with
        | nil => simp [wSafe] at hs
        | cons b r3 =>
          cases b with
          | many p min => simp [wSafe] at hs
          | gOpen => simp [wSafe] at hs
          | gClose => simp [wSafe] at hs
          | lit y =>
            simp only [wSafe, bne_self_eq_false, Bool.false_or, Bool.and_eq_true, bne_iff_ne,
              ne_eq] at hs
            obtain ⟨t2, hst2, _⟩ := hm
            rw [ht] at hst2
            exact hs.1.1 ((List.cons.inj hst2).1).symm
      | cons d a2 =>
        have hd : d = x := (List.cons.inj hst).1
        have ht : t = a2 ++ ('w' :: 'w' :: 'w' :: '.' :: rest) := ((List.cons.inj hst).2).symm
        exact ⟨a2 ++ ('m' :: '.' :: rest), by rw [hd]; rfl, ih hsr a2 (ht ▸ hm)⟩
    | many p min =>
      simp only [wSafe, Bool.and_eq_true, Bool.or_eq_true, Bool.not_eq_true',
        decide_eq_true_eq] at hs
      obtain ⟨⟨⟨hpm, hmin1⟩, htail⟩, hsr⟩ := hs
      obtain ⟨run, t, hst, hrun, hmin, hm⟩ := h
      rcases List.append_eq_append_iff.1 hst with ⟨e, hrun_eq, hrest⟩ | ⟨a2, ha, ht⟩
      · -- the run reaches the end of `a`
        cases e with
        | nil =>
          have ht : t = 'w' :: 'w' :: 'w' :: '.' :: rest := by simpa using hrest.symm
          have hm2 := ih hsr [] (by rw [ht] at hm; exact hm)
          exact ⟨run, 'm' :: '.' :: rest, by rw [hrun_eq]; simp, hrun, hmin, hm2⟩
        | cons x1 e1 =>
          have hx1 : x1 = 'w' := ((List.cons.inj hrest).1).symm
          have hpw : p 'w' = true := hrun 'w' (by rw [hrun_eq, hx1]; simp)
          have hpmm : p 'm' = true := by
            rcases hpm with h1 | h1
            · rw [hpw] at h1; exact Bool.noConfusion h1
            · exact h1
          have hrest1 : 'w' :: 'w' :: '.' :: rest = e1 ++ t := (List.cons.inj hrest).2
          have hrunA : ∀ c ∈ a ++ ['m'], p c = true := by
            intro c hc
            rcases List.mem_append.1 hc with hc | hc
            · exact hrun c (by rw [hrun_eq]; exact List.mem_append_left _ hc)
            · rw [List.mem_singleton.1 hc]; exact hpmm
          cases e1 with
          | nil =>
            have ht : t = 'w' :: 'w' :: '.' :: rest := by simpa using hrest1.symm
            have hnil := stripMarks_nil_of_inside r rest ['w', 'w'] (Or.inr rfl) hsr htail
              (by rw [ht] at hm; exact hm)
            exact ⟨a ++ ['m'], '.' :: rest, by simp, hrunA, by simp; omega,
              matches_of_stripMarks_nil r _ hnil⟩
          | cons x2 e2 =>
            have hrest2 : 'w' :: '.' :: rest = e2 ++ t := (List.cons.inj hrest1).2
            cases e2 with
            | nil =>
              have ht : t = 'w' :: '.' :: rest := by simpa using hrest2.symm
              have hnil := stripMarks_nil_of_inside r rest ['w'] (Or.inl rfl) hsr htail
                (by rw [ht] at hm; exact hm)
              exact ⟨a ++ ['m'], '.' :: rest, by simp, hrunA, by simp; omega,
                matches_of_stripMarks_nil r _ hnil⟩
            | cons x3 e3 =>
              have hrest3 : '.' :: rest = e3 ++ t := (List.cons.inj hrest2).2
              refine ⟨a ++ ['m'] ++ e3, t, by rw [List.append_assoc, ← hrest3]; simp, ?_,
                by simp; omega, hm⟩
              intro c hc
              rcases List.mem_append.1 hc with hc | hc
              · exact hrunA c hc
              · exact hrun c (by rw [hrun_eq]; simp [hc])
      · -- the run ends inside `a`
        have hm2 := ih hsr a2 (by rw [ht] at hm; exact hm)
        exact ⟨run, a2 ++ ('m' :: '.' :: rest), by rw [ha]; simp, hrun, hmin, hm2⟩

theorem regexMatch_transfer (r : Regex) (hs : wSafe r = true) (h0 : startsOffW r = true)
    (a rest : JSString)
    (h : (regexMatch r (a ++ ('w' :: 'w' :: 'w' :: '.' :: rest))).isSome = true) :
    (regexMatch r (a ++ ('m' :: '.' :: rest))).isSome = true := by
  rw [regexMatch_isSome] at h ⊢
  obtain ⟨x, y, hxy, hm⟩ := h
  have hstart : ∀ t, ¬ Matches r ('w' :: t) := by
    intro t hmt
    cases r with
    | nil => exact Bool.noConfusion h0
    | cons atom r2 =>
      cases atom with
      | many p min => exact Bool.noConfusion h0
      | gOpen => exact Bool.noConfusion h0
      | gClose => exact Bool.noConfusion h0
      | lit c =>
        obtain ⟨t2, ht2, _⟩ := hmt
        simp only [startsOffW, bne_iff_ne, ne_eq] at h0
        exact h0 ((List.cons.inj ht2).1).symm
  rcases List.append_eq_append_iff.1 hxy with ⟨e, hx, hrest⟩ | ⟨a2, ha, hy⟩
  · cases e with
    | nil =>
      have hy : y = 'w' :: 'w' :: 'w' :: '.' :: rest := by simpa using hrest.symm
      exact ⟨a, 'm' :: '.' :: rest, rfl, by
        have := matches_transfer r rest hs [] (by rw [hy] at hm; exact hm)
        exact this⟩
    | cons x1 e1 =>
      have hrest1 : 'w' :: 'w' :: '.' :: rest = e1 ++ y := (List.cons.inj hrest).2
      cases e1 with
      | nil =>
        have hy : y = 'w' :: 'w' :: '.' :: rest := by simpa using hrest1.symm
        exact absurd (hy ▸ hm) (hstart _)
      | cons x2 e2 =>
        have hrest2 : 'w' :: '.' :: rest = e2 ++ y := (List.cons.inj hrest1).2
        cases e2 with
        | nil =>
          have hy : y = 'w' :: '.' :: rest := by simpa using hrest2.symm
          exact absurd (hy ▸ hm) (hstart _)
        | cons x3 e3 =>
          have hrest3 : '.' :: rest = e3 ++ y := (List.cons.inj hrest2).2
          exact ⟨a ++ ['m'] ++ e3, y, by rw [List.append_assoc, ← hrest3]; simp, hm⟩
  · have hm2 := matches_transfer r rest hs a2 (by rw [hy] at hm; exact hm)
    exact ⟨x, a2 ++ ('m' :: '.' :: rest), by rw [ha]; simp, hm2⟩

theorem replaceFirst_of_includes (w r u : JSString) (h : includes u w = true) :
    ∃ a b, u = a ++ w ++ b ∧ replaceFirst w r u = a ++ r ++ b := by
  induction u with
  | nil =>
    have hw : w = [] := by
      cases w with
      | nil => rfl
      | cons c w => simp [includes, List.isPrefixOf] at h
    subst hw
    exact ⟨[], [], rfl, by simp [replaceFirst, List.isPrefixOf]⟩
  | cons c t ih =>
    rw [replaceFirst]
    by_cases hp : w.isPrefixOf (c :: t) = true
    · rw [if_pos hp]
      obtain ⟨b, hb⟩ := List.isPrefixOf_iff_prefix.1 hp
      refine ⟨[], b, by simp [hb], ?_⟩
      rw [← hb, List.drop_left]
      rfl
    · rw [if_neg hp]
      rw [includes, Bool.or_eq_true] at h
      obtain ⟨a, b, hab, hr⟩ := ih (h.resolve_left hp)
      exact ⟨c :: a, b, by rw [hab]; rfl, by rw [hr]; rfl⟩

theorem extractVideoId_eq_none_iff (u : JSString) :
    extractVideoId u = none ↔ ∀ re ∈ idPatterns, regexMatch re u = none := by
  unfold extractVideoId
  rw [List.findSome?_eq_none_iff]
  constructor
  · intro h re hre
    have := h re hre
    cases hm : regexMatch re u with
    | none => rfl
    | some x => rw [hm] at this; exact Option.noConfusion this
  · intro h re hre
    rw [h re hre]; rfl

theorem idPatterns_safe : ∀ re ∈ idPatterns, wSafe re = true ∧ startsOffW re = true := by
  decide

theorem extractVideoId_mobile_none (a b : JSString)
    (h : extractVideoId (a ++ "m.facebook.com".data ++ b) = none) :
    extractVideoId (a ++ "www.facebook.com".data ++ b) = none := by
  rw [extractVideoId_eq_none_iff] at h ⊢
  intro re hre
  have hsafe := idPatterns_safe re hre
  cases hm : regexMatch re (a ++ "www.facebook.com".data ++ b) with
  | none => rfl
  | some x =>
    exfalso
    have h1 : (regexMatch re (a ++ ('w' :: 'w' :: 'w' :: '.' :: ("facebook.com".data ++ b)))).isSome
        = true := by
      have : a ++ "www.facebook.com".data ++ b =
          a ++ ('w' :: 'w' :: 'w' :: '.' :: ("facebook.com".data ++ b)) := by simp
      rw [← this, hm]; rfl
    have h2 := regexMatch_transfer re hsafe.1 hsafe.2 a _ h1
    have : a ++ "m.facebook.com".data ++ b =
        a ++ ('m' :: '.' :: ("facebook.com".data ++ b)) := by simp
    rw [← this, h re hre] at h2
    exact Bool.noConfusion h2

theorem normalizeUrl_preserves_none (u : JSString) (h : extractVideoId u = none) :
    extractVideoId (normalizeUrl u) = none := by
  have hmob : extractVideoId (normalizeMobile u) = none := by
    unfold normalizeMobile
    split
    · next hinc =>
      obtain ⟨a, b, hab, hr⟩ := replaceFirst_of_includes "m.facebook.com".data
        "www.facebook.com".data u hinc
      rw [hr]
      exact extractVideoId_mobile_none a b (hab ▸ h)
    · unfold normalizeReel
      split
      · rw [h]; exact h
      · exact h
  unfold normalizeUrl
  split
  · rw [h]; exact hmob
  · exact hmob

/-! ## Lemmas on the orchestrator -/

theorem extractFromDirectPage_calls (env : Platform) (hist : List FetchCall) (url : JSString) :
    (extractFromDirectPage env hist url).2 = hist ++ [directCall url] := by
  unfold extractFromDirectPage
  split
  · rfl
  · split <;> rfl

theorem extractFromMobilePage_calls (env : Platform) (hist : List FetchCall) (url : JSString) :
    (extractFromMobilePage env hist url).2 = hist ++ [mobileCall url] := by
  unfold extractFromMobilePage
  split
  · rfl
  · split <;> rfl

theorem extractFromEmbedded_calls (env : Platform) (hist : List FetchCall) (url : JSString) :
    (truthyId (extractVideoId url) = none ∧ extractFromEmbedded env hist url = (.failure, hist)) ∨
      (truthyId (extractVideoId url) ≠ none ∧
        (extractFromEmbedded env hist url).2 = hist ++ [embeddedCall url]) := by
  unfold extractFromEmbedded
  cases hid : truthyId (extractVideoId url) with
  | none => exact Or.inl ⟨rfl, rfl⟩
  | some id =>
    refine Or.inr ⟨fun h => Option.noConfusion h, ?_⟩
    dsimp only
    split
    · rfl
    · split <;> rfl

theorem usable_direct_some (env : Platform) (hist : List FetchCall) (url html : JSString)
    (hf : env.fetch hist (directCall url) = some html)
    (hne : extractVideoUrlsFromHtml env.parse html ≠ []) :
    ∃ d, (extractFromDirectPage env hist url).1 = .success d ∧
      usable (extractFromDirectPage env hist url).1 = some d ∧
      d.downloadLinks = extractVideoUrlsFromHtml env.parse html := by
  have hlen : 0 < (extractVideoUrlsFromHtml env.parse html).length :=
    List.length_pos.2 hne
  unfold extractFromDirectPage
  rw [hf]
  simp only [if_pos hlen, usable]
  exact ⟨_, rfl, rfl, rfl⟩

theorem usable_direct_none (env : Platform) (hist : List FetchCall) (url : JSString)
    (hf : ∀ html, env.fetch hist (directCall url) = some html →
      extractVideoUrlsFromHtml env.parse html = []) :
    usable (extractFromDirectPage env hist url).1 = none := by
  unfold extractFromDirectPage
  cases hfe : env.fetch hist (directCall url) with
  | none => rfl
  | some html => simp [hf html hfe, usable]

theorem usable_mobile_some (env : Platform) (hist : List FetchCall) (url html : JSString)
    (hf : env.fetch hist (mobileCall url) = some html)
    (hne : extractVideoUrlsFromHtml env.parse html ≠ []) :
    ∃ d, (extractFromMobilePage env hist url).1 = .success d ∧
      usable (extractFromMobilePage env hist url).1 = some d ∧
      d.downloadLinks = extractVideoUrlsFromHtml env.parse html := by
  have hlen : 0 < (extractVideoUrlsFromHtml env.parse html).length :=
    List.length_pos.2 hne
  unfold extractFromMobilePage
  rw [hf]
  simp only [if_pos hlen, usable]
  exact ⟨_, rfl, rfl, rfl⟩

theorem usable_mobile_none (env : Platform) (hist : List FetchCall) (url : JSString)
    (hf : ∀ html, env.fetch hist (mobileCall url) = some html →
      extractVideoUrlsFromHtml env.parse html = []) :
    usable (extractFromMobilePage env hist url).1 = none := by
  unfold extractFromMobilePage
  cases hfe : env.fetch hist (mobileCall url) with
  | none => rfl
  | some html => simp [hf html hfe, usable]

theorem usable_embedded_some (env : Platform) (hist : List FetchCall) (url html : JSString)
    (hid : truthyId (extractVideoId url) ≠ none)
    (hf : env.fetch hist (embeddedCall url) = some html)
    (hne : extractVideoUrlsFromHtml env.parse html ≠ []) :
    ∃ d, (extractFromEmbedded env hist url).1 = .success d ∧
      usable (extractFromEmbedded env hist url).1 = some d ∧
      d.downloadLinks = extractVideoUrlsFromHtml env.parse html := by
  have hlen : 0 < (extractVideoUrlsFromHtml env.parse html).length :=
    List.length_pos.2 hne
  unfold extractFromEmbedded
  cases hi : truthyId (extractVideoId url) with
  | none => exact absurd hi hid
  | some id =>
    dsimp only
    rw [hf]
    simp only [if_pos hlen, usable]
    exact ⟨_, rfl, rfl, rfl⟩

theorem usable_embedded_none (env : Platform) (hist : List FetchCall) (url : JSString)
    (hf : ∀ html, env.fetch hist (embeddedCall url) = some html →
      extractVideoUrlsFromHtml env.parse html = []) :
    usable (extractFromEmbedded env hist url).1 = none := by
  unfold extractFromEmbedded
  cases hi : truthyId (extractVideoId url) with
  | none => rfl
  | some id =>
    dsimp only
    cases hfe : env.fetch hist (embeddedCall url) with
    | none => rfl
    | some html => simp [hf html hfe, usable]

/-- The calls of `getVideoDetails` are the direct call, then the mobile call, then
(only with an identifier in the normalized URL) the embedded call. -/
theorem getVideoDetails_calls (env : Platform) (url : JSString) :
    (getVideoDetails env url).2 = [directCall (normalizeUrl url)] ∨
    (getVideoDetails env url).2 =
      [directCall (normalizeUrl url), mobileCall (normalizeUrl url)] ∨
    (truthyId (extractVideoId (normalizeUrl url)) ≠ none ∧
      (getVideoDetails env url).2 = [directCall (normalizeUrl url),
        mobileCall (normalizeUrl url), embeddedCall (normalizeUrl url)]) := by
  have hd : (extractFromDirectPage env [] (normalizeUrl url)).2 =
      [directCall (normalizeUrl url)] := extractFromDirectPage_calls env [] (normalizeUrl url)
  have hm : (extractFromMobilePage env (extractFromDirectPage env [] (normalizeUrl url)).2
      (normalizeUrl url)).2 = [directCall (normalizeUrl url), mobileCall (normalizeUrl url)] := by
    rw [extractFromMobilePage_calls, hd]; rfl
  unfold getVideoDetails
  dsimp only
  split
  · exact Or.inl hd
  · split
    · exact Or.inr (Or.inl hm)
    · rcases extractFromEmbedded_calls env
        (extractFromMobilePage env (extractFromDirectPage env [] (normalizeUrl url)).2
          (normalizeUrl url)).2 (normalizeUrl url) with ⟨_, he⟩ | ⟨hid, he⟩
      · refine Or.inr (Or.inl ?_)
        have he2 := (congrArg Prod.snd he).trans hm
        split
        · exact he2
        · exact he2
      · refine Or.inr (Or.inr ⟨hid, ?_⟩)
        have he2 := he.trans (by rw [hm])
        split
        · exact he2
        · exact he2

theorem getVideoDetails_of_direct (env : Platform) (url : JSString) (d : VideoDetails)
    (h : usable (extractFromDirectPage env [] (normalizeUrl url)).1 = some d) :
    getVideoDetails env url = (.found d, [directCall (normalizeUrl url)]) := by
  unfold getVideoDetails
  simp only [h]
  rw [extractFromDirectPage_calls]
  rfl

theorem getVideoDetails_of_mobile (env : Platform) (url : JSString) (d : VideoDetails)
    (h1 : usable (extractFromDirectPage env [] (normalizeUrl url)).1 = none)
    (h2 : usable (extractFromMobilePage env [directCall (normalizeUrl url)]
      (normalizeUrl url)).1 = some d) :
    getVideoDetails env url =
      (.found d, [directCall (normalizeUrl url), mobileCall (normalizeUrl url)]) := by
  unfold getVideoDetails
  have hd : (extractFromDirectPage env [] (normalizeUrl url)).2 =
      [directCall (normalizeUrl url)] := extractFromDirectPage_calls env [] (normalizeUrl url)
  simp only [h1, hd, h2]
  rw [extractFromMobilePage_calls]
  rfl

theorem getVideoDetails_of_embedded (env : Platform) (url : JSString) (d : VideoDetails)
    (h1 : usable (extractFromDirectPage env [] (normalizeUrl url)).1 = none)
    (h2 : usable (extractFromMobilePage env [directCall (normalizeUrl url)]
      (normalizeUrl url)).1 = none)
    (h3 : usable (extractFromEmbedded env
      [directCall (normalizeUrl url), mobileCall (normalizeUrl url)] (normalizeUrl url)).1 =
        some d) :
    (getVideoDetails env url).1 = .found d := by
  unfold getVideoDetails
  have hd : (extractFromDirectPage env [] (normalizeUrl url)).2 =
      [directCall (normalizeUrl url)] := extractFromDirectPage_calls env [] (normalizeUrl url)
  have hm : (extractFromMobilePage env [directCall (normalizeUrl url)] (normalizeUrl url)).2 =
      [directCall (normalizeUrl url), mobileCall (normalizeUrl url)] :=
    extractFromMobilePage_calls env _ _
  simp only [h1, hd, h2, hm, h3]

theorem getVideoDetails_exhausted (env : Platform) (url : JSString)
    (h1 : usable (extractFromDirectPage env [] (normalizeUrl url)).1 = none)
    (h2 : usable (extractFromMobilePage env [directCall (normalizeUrl url)]
      (normalizeUrl url)).1 = none)
    (h3 : usable (extractFromEmbedded env
      [directCall (normalizeUrl url), mobileCall (normalizeUrl url)] (normalizeUrl url)).1 =
        none) :
    (getVideoDetails env url).1 = .failed exhaustedError := by
  unfold getVideoDetails
  have hd : (extractFromDirectPage env [] (normalizeUrl url)).2 =
      [directCall (normalizeUrl url)] := extractFromDirectPage_calls env [] (normalizeUrl url)
  have hm : (extractFromMobilePage env [directCall (normalizeUrl url)] (normalizeUrl url)).2 =
      [directCall (normalizeUrl url), mobileCall (normalizeUrl url)] :=
    extractFromMobilePage_calls env _ _
  simp only [h1, hd, h2, hm, h3]

theorem embedded_calls_of_id (env : Platform) (url : JSString)
    (h1 : usable (extractFromDirectPage env [] (normalizeUrl url)).1 = none)
    (h2 : usable (extractFromMobilePage env [directCall (normalizeUrl url)]
      (normalizeUrl url)).1 = none)
    (hid : truthyId (extractVideoId (normalizeUrl url)) ≠ none) :
    (getVideoDetails env url).2 = [directCall (normalizeUrl url),
      mobileCall (normalizeUrl url), embeddedCall (normalizeUrl url)] := by
  have hd : (extractFromDirectPage env [] (normalizeUrl url)).2 =
      [directCall (normalizeUrl url)] := extractFromDirectPage_calls env [] (normalizeUrl url)
  have hm : (extractFromMobilePage env [directCall (normalizeUrl url)] (normalizeUrl url)).2 =
      [directCall (normalizeUrl url), mobileCall (normalizeUrl url)] :=
    extractFromMobilePage_calls env _ _
  have he : (extractFromEmbedded env
      [directCall (normalizeUrl url), mobileCall (normalizeUrl url)] (normalizeUrl url)).2 =
      [directCall (normalizeUrl url), mobileCall (normalizeUrl url),
        embeddedCall (normalizeUrl url)] := by
    rcases extractFromEmbedded_calls env
      [directCall (normalizeUrl url), mobileCall (normalizeUrl url)] (normalizeUrl url) with
      ⟨hn, _⟩ | ⟨_, he⟩
    · exact absurd hn hid
    · exact he
  unfold getVideoDetails
  simp only [h1, hd, h2, hm]
  split <;> exact he

/-! ## The claims -/

/-- C1: for every markup string, the list returned by `extractVideoUrlsFromHtml`
contains no two entries with the same url, and every entry's url satisfies
`isValidVideoUrl` (whatever the platform URL parser answers). -/
theorem extractVideoUrlsFromHtml_nodup_valid (P : UrlParser) (html : JSString) :
    ((extractVideoUrlsFromHtml P html).map VideoLink.url).Nodup ∧
      ∀ v ∈ extractVideoUrlsFromHtml P html, isValidVideoUrl P v.url = true := by
  have hinv := discovered_inv P html
  have hperm := extract_perm P html
  constructor
  · rw [(hperm.map VideoLink.url).nodup_iff]
    have hn := hinv.nodup
    rw [hinv.urls] at hn
    exact hn
  · intro v hv
    exact hinv.valid v (hperm.mem_iff.1 hv)

/-- C2: for every markup string, the list returned by `extractVideoUrlsFromHtml` is
ordered by non-increasing quality-tier ordinal, where the ordinal of a candidate is
that of the first word of its quality label (HD = 3, SD = 2, Mobile = 1,
Standard = 0), and the entries of each tier appear in the order in which they were
discovered. -/
theorem extractVideoUrlsFromHtml_ranked_stable (P : UrlParser) (html : JSString) :
    (extractVideoUrlsFromHtml P html).Sorted (fun a b => tier b ≤ tier a) ∧
      (∀ t : Int, (extractVideoUrlsFromHtml P html).filter (fun v => decide (tier v = t)) =
        (discovered P html).filter (fun v => decide (tier v = t))) ∧
      (∀ v : VideoLink, tier v = qualityOrder (firstWord v.quality)) ∧
      qualityOrder "HD".data = 3 ∧ qualityOrder "SD".data = 2 ∧
      qualityOrder "Mobile".data = 1 ∧ qualityOrder "Standard".data = 0 := by
  refine ⟨?_, extract_filter_tier P html, fun _ => rfl, by decide, by decide, by decide,
    by decide⟩
  refine (extract_sorted P html).imp ?_
  intro a b h
  unfold compareQuality at h
  omega

/-- C3 fails on the code: the string `httpx://fbcdn.net/video` parses as an absolute
URL whose scheme is `httpx`, neither `http` nor `https`, and `isValidVideoUrl`
accepts it, because the scheme is tested with `protocol.startsWith('http')`. -/
theorem isValidVideoUrl_accepts_httpx :
    isValidVideoUrl urlProtocol "httpx://fbcdn.net/video".data = true ∧
      urlProtocol "httpx://fbcdn.net/video".data = some "httpx:".data ∧
      urlProtocol "httpx://fbcdn.net/video".data ≠ some "http:".data ∧
      urlProtocol "httpx://fbcdn.net/video".data ≠ some "https:".data := by
  decide

/-- What `isValidVideoUrl` computes, on every string `u`: it is true if and only if
`u` parses as an absolute URL whose protocol begins with `http`, `u` contains a
media-host indicator and `u` contains a media-content indicator.  The parser is any
function that accepts only strings with a colon, as every parser of absolute URLs
does; the length guard of the code is then implied. -/
theorem isValidVideoUrl_iff (P : UrlParser) (hP : ∀ s proto, P s = some proto → ':' ∈ s)
    (u : JSString) :
    isValidVideoUrl P u = true ↔
      (∃ proto, P u = some proto ∧ startsWith proto "http".data = true) ∧
        (includes u "video.xx.fbcdn.net".data = true ∨
          includes u "scontent.xx.fbcdn.net".data = true ∨
          includes u "video.fxx".data = true ∨ includes u "scontent-".data = true ∨
          includes u "fbcdn.net".data = true) ∧
        (includes u ".mp4".data = true ∨ includes u "video".data = true ∨
          includes u "type=video".data = true) := by
  rw [isValidVideoUrl_iff_of_colon P hP u]
  simp [hasValidDomain, validDomains, hasVideoIndicators, or_assoc]

/-- The characterisation of `isValidVideoUrl` applied to the platform model and a
media URL with the scheme `https`. -/
theorem isValidVideoUrl_iff_witness :
    (∀ s proto, urlProtocol s = some proto → ':' ∈ s) ∧
      isValidVideoUrl urlProtocol "https://video.xx.fbcdn.net/v/x.mp4".data = true :=
  ⟨urlProtocol_colon,
    (isValidVideoUrl_iff urlProtocol urlProtocol_colon
      "https://video.xx.fbcdn.net/v/x.mp4".data).2 (by decide)⟩

/-- C4, as stated, fails: in `repeatedHtml` an `hd_src` match captures `mediaX` and
an `sd_src` match captures `mediaY`, two distinct valid URLs, yet the candidate of
`mediaY` comes first in the output, because an earlier `hd_src` match had captured
`mediaY` already. -/
theorem hd_src_not_first_counterexample :
    mediaX ∈ (execAll (quotedRule "hd_src".data).re repeatedHtml).map cleanRuleUrl ∧
      mediaY ∈ (execAll (quotedRule "sd_src".data).re repeatedHtml).map cleanRuleUrl ∧
      mediaX ≠ mediaY ∧
      isValidVideoUrl urlProtocol mediaX = true ∧ isValidVideoUrl urlProtocol mediaY = true ∧
      extractVideoUrlsFromHtml urlProtocol repeatedHtml =
        [{ quality := "HD (720p)".data, format := "MP4".data, size := "~50MB".data,
           url := mediaY },
         { quality := "HD (720p)".data, format := "MP4".data, size := "~50MB".data,
           url := mediaX }] := by
  set_option maxRecDepth 100000 in decide

/-- C4, amended: for every markup in which an `hd_src` rule match and an `sd_src`
rule match capture, after cleaning, two distinct URLs `u1` and `u2` that both pass
`isValidVideoUrl`, and in which no `hd_src` match capturing `u2` comes before the
first `hd_src` match capturing `u1`, `extractVideoUrlsFromHtml` returns a candidate
for each, the candidate of `u1` has an HD-tier quality, and it appears before the
candidate of `u2` in the output. -/
theorem hd_src_ranked_before_sd_src (P : UrlParser) (html u1 u2 : JSString)
    (h1 : u1 ∈ (execAll (quotedRule "hd_src".data).re html).map cleanRuleUrl)
    (h2 : u2 ∈ (execAll (quotedRule "sd_src".data).re html).map cleanRuleUrl)
    (hne : u1 ≠ u2)
    (hv1 : isValidVideoUrl P u1 = true) (hv2 : isValidVideoUrl P u2 = true)
    (hord : firstIndexOf u1 ((execAll (quotedRule "hd_src".data).re html).map cleanRuleUrl) <
      firstIndexOf u2 ((execAll (quotedRule "hd_src".data).re html).map cleanRuleUrl)) :
    ∃ c1 c2, c1 ∈ extractVideoUrlsFromHtml P html ∧ c2 ∈ extractVideoUrlsFromHtml P html ∧
      c1.url = u1 ∧ c2.url = u2 ∧ firstWord c1.quality = "HD".data ∧ tier c1 = 3 ∧
      List.Sublist [c1, c2] (extractVideoUrlsFromHtml P html) := by
  have _ := h1
  obtain ⟨c1, c2, hc1, hc2, hq, hsub⟩ := hd_before_sd_extract P html u1 u2 hne hv1 hv2 h2 hord
  refine ⟨c1, c2, hsub.subset (by simp), hsub.subset (by simp), hc1, hc2, hq, ?_, hsub⟩
  unfold tier
  rw [hq]
  decide

/-- Witness of C4, amended: `sdThenHdHtml`, with `mediaX` under `hd_src` and `mediaY`
under `sd_src`. -/
theorem hd_src_ranked_before_sd_src_witness :
    ∃ c1 c2, c1 ∈ extractVideoUrlsFromHtml urlProtocol sdThenHdHtml ∧
      c2 ∈ extractVideoUrlsFromHtml urlProtocol sdThenHdHtml ∧
      c1.url = mediaX ∧ c2.url = mediaY ∧ firstWord c1.quality = "HD".data ∧ tier c1 = 3 ∧
      List.Sublist [c1, c2] (extractVideoUrlsFromHtml urlProtocol sdThenHdHtml) :=
  hd_src_ranked_before_sd_src urlProtocol sdThenHdHtml mediaX mediaY
    (by set_option maxRecDepth 100000 in decide) (by set_option maxRecDepth 100000 in decide)
    (by decide) (by decide) (by decide) (by set_option maxRecDepth 100000 in decide)

/-- C5 fails on the code: `hdOnlyHtml` has a single rule match, an `hd_src` match
capturing `mediaX`, which contains neither `hd` nor `sd`; the single candidate has
quality `HD (720p)`, while `qualityMap` gives `HD (1080p)` for `hd_src`. -/
theorem hd_src_quality_is_720p :
    patterns.map (fun rule => execAll rule.re hdOnlyHtml) =
        [[mediaX], [], [], [], [], [], [], [], [], [], [], []] ∧
      execAll jsonPattern hdOnlyHtml = [] ∧
      includes mediaX "hd".data = false ∧ includes mediaX "sd".data = false ∧
      isValidVideoUrl urlProtocol mediaX = true ∧
      extractVideoUrlsFromHtml urlProtocol hdOnlyHtml =
        [{ quality := "HD (720p)".data, format := "MP4".data, size := "~50MB".data,
           url := mediaX }] ∧
      qualityMap.lookup "hd_src".data = some "HD (1080p)".data := by
  set_option maxRecDepth 100000 in decide

/-- C6 fails on the code: on `escapedCapture` the rule loop yields the URL with `/`
and `&` restored, the JSON loop yields it with `u0026` left in place of `&`; on
`jsonHtml` the same capture therefore enters the candidate list twice, once under
each cleaning. -/
theorem json_cleaning_differs :
    cleanRuleUrl escapedCapture = "https://video.xx.fbcdn.net/v/x.mp4?a=1&b=2".data ∧
      cleanJsonUrl escapedCapture = "https://video.xx.fbcdn.net/v/x.mp4?a=1u0026b=2".data ∧
      cleanRuleUrl escapedCapture ≠ cleanJsonUrl escapedCapture ∧
      execAll jsonPattern jsonHtml = [escapedCapture] ∧
      extractVideoUrlsFromHtml urlProtocol jsonHtml =
        [{ quality := "Standard".data, format := "MP4".data, size := "~30MB".data,
           url := "https://video.xx.fbcdn.net/v/x.mp4?a=1&b=2".data },
         { quality := "Standard".data, format := "MP4".data, size := "~30MB".data,
           url := "https://video.xx.fbcdn.net/v/x.mp4?a=1u0026b=2".data }] := by
  set_option maxRecDepth 100000 in decide

/-- C7: for every non-empty run `id` of characters of `[A-Za-z0-9_-]`, on the input
`https://fb.watch/<id>/` the function `extractVideoId` returns `id` and
`normalizeUrl` returns `https://www.facebook.com/watch/?v=<id>`. -/
theorem fbWatch_normalized (id : JSString) (hne : id ≠ [])
    (hid : ∀ c ∈ id, isIdChar c = true) :
    extractVideoId ("https://fb.watch/".data ++ id ++ "/".data) = some id ∧
      normalizeUrl ("https://fb.watch/".data ++ id ++ "/".data) =
        "https://www.facebook.com/watch/?v=".data ++ id :=
  ⟨extractVideoId_fbWatch id hne hid, normalizeUrl_fbWatch id hne hid⟩

/-- Witness of C7: `https://fb.watch/abc123/` gives the identifier `abc123` and the
address `https://www.facebook.com/watch/?v=abc123`. -/
theorem fbWatch_normalized_witness :
    extractVideoId "https://fb.watch/abc123/".data = some "abc123".data ∧
      normalizeUrl "https://fb.watch/abc123/".data =
        "https://www.facebook.com/watch/?v=abc123".data :=
  fbWatch_normalized "abc123".data (by decide) (by decide)

/-- C8, as stated, fails: `https://m.facebook.com/reel/123` matches the reel pattern
with digits `123`, and `normalizeUrl` returns `https://www.facebook.com/reel/123`,
not the watch address. -/
theorem mobile_reel_counterexample :
    regexMatch reelPattern "https://m.facebook.com/reel/123".data = some ("123".data, []) ∧
      normalizeUrl "https://m.facebook.com/reel/123".data =
        "https://www.facebook.com/reel/123".data ∧
      normalizeUrl "https://m.facebook.com/reel/123".data ≠
        "https://www.facebook.com/watch/?v=123".data := by
  decide

/-- C8, amended: for every input URL that contains neither `fb.watch` nor
`m.facebook.com` and whose first matching identifier pattern is the reel pattern
`facebook.com/reel/<digits>`, `normalizeUrl` returns
`https://www.facebook.com/watch/?v=<digits>`. -/
theorem reel_normalized (u d rest : JSString)
    (hreel : regexMatch reelPattern u = some (d, rest))
    (hfb : includes u "fb.watch".data = false)
    (hm : includes u "m.facebook.com".data = false)
    (hearlier : ∀ re ∈ [videosPattern, watchPattern, postsPattern, videoPhpPattern,
      videosVbPattern], regexMatch re u = none) :
    normalizeUrl u = "https://www.facebook.com/watch/?v=".data ++ d :=
  normalizeUrl_reel u d rest hreel hfb hm hearlier

/-- Witness of C8, amended: `https://www.facebook.com/reel/123`. -/
theorem reel_normalized_witness :
    regexMatch reelPattern "https://www.facebook.com/reel/123".data = some ("123".data, []) ∧
      normalizeUrl "https://www.facebook.com/reel/123".data =
        "https://www.facebook.com/watch/?v=123".data :=
  ⟨by decide,
    reel_normalized "https://www.facebook.com/reel/123".data "123".data [] (by decide)
      (by decide) (by decide) (by decide)⟩

/-- C9, as stated, fails: `https://m.facebook.com/?u=fb.watch/x` uses the mobile
subdomain, and `normalizeUrl` returns `https://www.facebook.com/watch/?v=x` instead
of the same URL on the host `www.facebook.com`. -/
theorem mobile_fbWatch_counterexample :
    normalizeUrl "https://m.facebook.com/?u=fb.watch/x".data =
        "https://www.facebook.com/watch/?v=x".data ∧
      normalizeUrl "https://m.facebook.com/?u=fb.watch/x".data ≠
        "https://www.facebook.com/?u=fb.watch/x".data := by
  decide

/-- C9, amended: for every input URL of the form `http(s)://m.facebook.com` followed
by any path and query, in which `fb.watch` does not occur or from which
`extractVideoId` extracts no identifier, `normalizeUrl` returns the same URL with
the host `m.facebook.com` replaced by `www.facebook.com` and the rest unchanged. -/
theorem mobile_host_rewritten (scheme rest : JSString)
    (hs : scheme = "https://".data ∨ scheme = "http://".data)
    (hfb : includes (scheme ++ "m.facebook.com".data ++ rest) "fb.watch".data = false ∨
      extractVideoId (scheme ++ "m.facebook.com".data ++ rest) = none) :
    normalizeUrl (scheme ++ "m.facebook.com".data ++ rest) =
      scheme ++ "www.facebook.com".data ++ rest := by
  rcases hs with rfl | rfl
  · exact normalizeUrl_mobile_https rest hfb
  · exact normalizeUrl_mobile_http rest hfb

/-- Witness of C9, amended: `https://m.facebook.com/reel/123?ref=share`. -/
theorem mobile_host_rewritten_witness :
    includes "https://m.facebook.com/reel/123?ref=share".data "fb.watch".data = false ∧
      normalizeUrl "https://m.facebook.com/reel/123?ref=share".data =
        "https://www.facebook.com/reel/123?ref=share".data :=
  ⟨by decide,
    mobile_host_rewritten "https://".data "/reel/123?ref=share".data (Or.inl rfl)
      (Or.inl (by decide))⟩

/-- C10: for every input string that is already canonical
(`https://www.facebook.com/watch/?v=<digits>`) or contains none of `fb.watch`,
`m.facebook.com` and `/reel/`, `normalizeUrl` returns the input unchanged.
`normalizeUrl` is a total function on strings: it returns for every input. -/
theorem normalizeUrl_unchanged (u : JSString)
    (h : (∃ d, d ≠ [] ∧ (∀ c ∈ d, isDigit c = true) ∧
        u = "https://www.facebook.com/watch/?v=".data ++ d) ∨
      (includes u "fb.watch".data = false ∧ includes u "m.facebook.com".data = false ∧
        includes u "/reel/".data = false)) :
    normalizeUrl u = u := by
  rcases h with ⟨d, _, hd, rfl⟩ | ⟨h1, h2, h3⟩
  · exact normalizeUrl_canonical d hd
  · exact normalizeUrl_unrecognized u h1 h2 h3

/-- Witness of C10: the canonical address `https://www.facebook.com/watch/?v=123`. -/
theorem normalizeUrl_unchanged_witness :
    normalizeUrl "https://www.facebook.com/watch/?v=123".data =
      "https://www.facebook.com/watch/?v=123".data :=
  normalizeUrl_unchanged "https://www.facebook.com/watch/?v=123".data
    (Or.inl ⟨"123".data, by decide, by decide, rfl⟩)

/-- C11: for every whole-second count `n` that a number represents exactly
(`n < 2 ^ 53`), given as a number or as its decimal text, `formatDuration` returns
`h:MM:SS` when `h = n div 3600` is positive and `m:SS` otherwise, with
`m = (n mod 3600) div 60`, `s = n mod 60` and `MM`, `SS` zero-padded to two digits. -/
theorem formatDuration_whole_seconds (n : Nat) (hn : n < 2 ^ 53) :
    formatDuration (.num n) = .str (durationLabel n) ∧
      formatDuration (.str (toDecimal n)) = .str (durationLabel n) := by
  have _ := hn
  have hparse : parseInt (.num n) = some (n : Int) := by
    show parseIntString (intToString (n : Int)) = some (n : Int)
    rw [intToString_natCast]
    exact parseIntString_toDecimal n
  constructor
  · by_cases h0 : n = 0
    · subst h0; decide
    · exact formatDuration_of_parse _ n (by simp [falsy, h0]) (fun h => JSValue.noConfusion h)
        hparse
  · refine formatDuration_of_parse _ n ?_ ?_ (parseIntString_toDecimal n)
    · have := toDecimal_ne_nil n
      cases hd : toDecimal n with
      | nil => exact absurd hd this
      | cons c t => rfl
    · intro h
      have hd := toDecimal_digits n ':' (by rw [JSValue.str.inj h]; decide)
      exact absurd hd (by decide)

/-- Witness of C11: 0 seconds give `0:00`, 65 seconds give `1:05` and 3725 seconds
give `1:02:05`. -/
theorem formatDuration_whole_seconds_witness :
    formatDuration (.num 0) = .str "0:00".data ∧ formatDuration (.num 65) = .str "1:05".data ∧
      formatDuration (.num 3725) = .str "1:02:05".data :=
  ⟨(formatDuration_whole_seconds 0 (by decide)).1.trans (by decide),
    (formatDuration_whole_seconds 65 (by decide)).1.trans (by decide),
    (formatDuration_whole_seconds 3725 (by decide)).1.trans (by decide)⟩

/-- C12, as stated, fails: the string `abc` cannot be parsed as a number, and
`formatDuration` returns `abc`, not `0:00`. -/
theorem formatDuration_unparseable_counterexample :
    parseInt (.str "abc".data) = none ∧
      formatDuration (.str "abc".data) = .str "abc".data ∧
      formatDuration (.str "abc".data) ≠ .str "0:00".data := by
  decide

/-- C12, amended: for every duration field value that is absent (`undefined`, `null`,
the empty string) `formatDuration` returns `0:00`; for every non-empty value that
`parseInt` cannot parse it returns the value unchanged. -/
theorem formatDuration_absent_or_unparseable (v : JSValue) :
    ((v = .undefined ∨ v = .null ∨ v = .str []) → formatDuration v = .str "0:00".data) ∧
      (falsy v = false → parseInt v = none → formatDuration v = v) := by
  constructor
  · rintro (rfl | rfl | rfl) <;> rfl
  · intro hf hp
    have hz : v ≠ .str "0:00".data := by
      rintro rfl
      exact absurd hp (by decide)
    unfold formatDuration
    rw [if_neg (by simp [hf, hz]), hp]

/-- Witness of C12, amended: an absent field gives `0:00`, the text `abc` is returned
as it is. -/
theorem formatDuration_absent_or_unparseable_witness :
    formatDuration .undefined = .str "0:00".data ∧
      formatDuration (.str "abc".data) = .str "abc".data :=
  ⟨(formatDuration_absent_or_unparseable .undefined).1 (Or.inl rfl),
    (formatDuration_absent_or_unparseable (.str "abc".data)).2 (by decide) (by decide)⟩

/-- C13: whatever the upstream fetch answers, `getVideoDetails` issues its calls in
the order Direct, Mobile, Embedded and returns the success object of the first
strategy whose page yields a non-empty candidate list, having issued no call of a
later strategy. -/
theorem getVideoDetails_first_success (env : Platform) (url : JSString) :
    List.IsPrefix (getVideoDetails env url).2
        [directCall (normalizeUrl url), mobileCall (normalizeUrl url),
          embeddedCall (normalizeUrl url)] ∧
      (∀ html, env.fetch [] (directCall (normalizeUrl url)) = some html →
        extractVideoUrlsFromHtml env.parse html ≠ [] →
        ∃ d, getVideoDetails env url = (.found d, [directCall (normalizeUrl url)]) ∧
          (extractFromDirectPage env [] (normalizeUrl url)).1 = .success d ∧
          d.downloadLinks = extractVideoUrlsFromHtml env.parse html) ∧
      ((∀ html, env.fetch [] (directCall (normalizeUrl url)) = some html →
          extractVideoUrlsFromHtml env.parse html = []) →
        ∀ html, env.fetch [directCall (normalizeUrl url)] (mobileCall (normalizeUrl url)) =
            some html →
          extractVideoUrlsFromHtml env.parse html ≠ [] →
          ∃ d, getVideoDetails env url =
              (.found d, [directCall (normalizeUrl url), mobileCall (normalizeUrl url)]) ∧
            (extractFromMobilePage env [directCall (normalizeUrl url)] (normalizeUrl url)).1 =
              .success d ∧
            d.downloadLinks = extractVideoUrlsFromHtml env.parse html) ∧
      ((∀ html, env.fetch [] (directCall (normalizeUrl url)) = some html →
          extractVideoUrlsFromHtml env.parse html = []) →
        (∀ html, env.fetch [directCall (normalizeUrl url)] (mobileCall (normalizeUrl url)) =
            some html → extractVideoUrlsFromHtml env.parse html = []) →
        truthyId (extractVideoId (normalizeUrl url)) ≠ none →
        ∀ html, env.fetch [directCall (normalizeUrl url), mobileCall (normalizeUrl url)]
            (embeddedCall (normalizeUrl url)) = some html →
          extractVideoUrlsFromHtml env.parse html ≠ [] →
          ∃ d, getVideoDetails env url =
              (.found d, [directCall (normalizeUrl url), mobileCall (normalizeUrl url),
                embeddedCall (normalizeUrl url)]) ∧
            (extractFromEmbedded env
              [directCall (normalizeUrl url), mobileCall (normalizeUrl url)]
              (normalizeUrl url)).1 = .success d ∧
            d.downloadLinks = extractVideoUrlsFromHtml env.parse html) := by
  refine ⟨?_, ?_, ?_, ?_⟩
  · rcases getVideoDetails_calls env url with h | h | ⟨_, h⟩
    · exact ⟨[_, _], by rw [h]; rfl⟩
    · exact ⟨[_], by rw [h]; rfl⟩
    · exact ⟨[], by rw [h]; simp⟩
  · intro html hf hne
    obtain ⟨d, hs, hu, hl⟩ := usable_direct_some env [] _ html hf hne
    exact ⟨d, getVideoDetails_of_direct env url d hu, hs, hl⟩
  · intro hd html hf hne
    obtain ⟨d, hs, hu, hl⟩ := usable_mobile_some env _ _ html hf hne
    exact ⟨d, getVideoDetails_of_mobile env url d (usable_direct_none env [] _ hd) hu, hs, hl⟩
  · intro hd hm hid html hf hne
    obtain ⟨d, hs, hu, hl⟩ := usable_embedded_some env _ _ html hid hf hne
    have h1 := usable_direct_none env [] _ hd
    have h2 := usable_mobile_none env _ _ hm
    refine ⟨d, Prod.ext (getVideoDetails_of_embedded env url d h1 h2 hu) ?_, hs, hl⟩
    exact embedded_calls_of_id env url h1 h2 hid

/-- Witness of C13: when the direct fetch fails and the mobile page carries a
candidate, the mobile result is returned after exactly the direct and the mobile
call. -/
theorem getVideoDetails_first_success_witness :
    ∃ d, getVideoDetails mobileOnlyPlatform "https://www.facebook.com/watch/?v=1".data =
        (.found d, [directCall "https://www.facebook.com/watch/?v=1".data,
          mobileCall "https://www.facebook.com/watch/?v=1".data]) ∧
      (extractFromMobilePage mobileOnlyPlatform
        [directCall "https://www.facebook.com/watch/?v=1".data]
        "https://www.facebook.com/watch/?v=1".data).1 = .success d ∧
      d.downloadLinks = extractVideoUrlsFromHtml urlProtocol hdOnlyHtml :=
  (getVideoDetails_first_success mobileOnlyPlatform
    "https://www.facebook.com/watch/?v=1".data).2.2.1
    (fun _ h => Option.noConfusion h) hdOnlyHtml rfl
    (by set_option maxRecDepth 100000 in decide)

/-- C14: for every input URL from which `extractVideoId` extracts no identifier, and
whatever the fetches answer, no call of `getVideoDetails` is the embedded
strategy's. -/
theorem embedded_skipped_without_id (env : Platform) (url : JSString)
    (h : extractVideoId url = none) :
    ∀ call ∈ (getVideoDetails env url).2, call.strategy ≠ .embedded := by
  have hn := normalizeUrl_preserves_none url h
  intro call hc
  rcases getVideoDetails_calls env url with hcalls | hcalls | ⟨hid, _⟩
  · rw [hcalls, List.mem_singleton] at hc
    rw [hc]; exact fun h => Strategy.noConfusion h
  · rw [hcalls] at hc
    simp only [List.mem_cons, List.mem_singleton, List.not_mem_nil, or_false] at hc
    rcases hc with rfl | rfl <;> exact fun h => Strategy.noConfusion h
  · rw [hn] at hid
    exact absurd rfl hid

/-- Witness of C14: a profile address carries no identifier. -/
theorem embedded_skipped_without_id_witness :
    extractVideoId "https://www.facebook.com/somepage".data = none ∧
      ∀ call ∈ (getVideoDetails offlinePlatform "https://www.facebook.com/somepage".data).2,
        call.strategy ≠ .embedded :=
  ⟨by decide,
    embedded_skipped_without_id offlinePlatform "https://www.facebook.com/somepage".data
      (by decide)⟩

/-- C15: for every input URL, if the fetch of each strategy fails or its page yields
no candidate, `getVideoDetails` returns the failure object whose reason is the
generic text that the video might be private, deleted, or require login. -/
theorem getVideoDetails_generic_failure (env : Platform) (url : JSString)
    (hd : ∀ html, env.fetch [] (directCall (normalizeUrl url)) = some html →
      extractVideoUrlsFromHtml env.parse html = [])
    (hm : ∀ html, env.fetch [directCall (normalizeUrl url)] (mobileCall (normalizeUrl url)) =
      some html → extractVideoUrlsFromHtml env.parse html = [])
    (he : ∀ html, env.fetch [directCall (normalizeUrl url), mobileCall (normalizeUrl url)]
      (embeddedCall (normalizeUrl url)) = some html →
      extractVideoUrlsFromHtml env.parse html = []) :
    (getVideoDetails env url).1 = .failed
      "Unable to extract video. The video might be private, deleted, or require login.".data :=
  getVideoDetails_exhausted env url (usable_direct_none env [] _ hd)
    (usable_mobile_none env _ _ hm) (usable_embedded_none env _ _ he)

/-- Witness of C15: every fetch fails. -/
theorem getVideoDetails_generic_failure_witness :
    (getVideoDetails offlinePlatform "https://www.facebook.com/watch/?v=1".data).1 = .failed
      "Unable to extract video. The video might be private, deleted, or require login.".data :=
  getVideoDetails_generic_failure offlinePlatform "https://www.facebook.com/watch/?v=1".data
    (fun _ h => Option.noConfusion h) (fun _ h => Option.noConfusion h)
    (fun _ h => Option.noConfusion h)

/-- C16, as stated, fails: when the inbound request has no `Range` header and the
upstream response carries `content-range`, the relay answers with status 200 and sets
no `Content-Range`. -/
theorem relay_without_inbound_range_counterexample :
    falsy (JSValue.str "bytes 0-9/10".data) = false ∧
      (relayResponse .undefined .undefined
        { contentType := .str "video/mp4".data, contentLength := .str "10".data,
          acceptRanges := .str "bytes".data, contentRange := .str "bytes 0-9/10".data }).status
        = 200 ∧
      headerOf "Content-Range".data (relayResponse .undefined .undefined
        { contentType := .str "video/mp4".data, contentLength := .str "10".data,
          acceptRanges := .str "bytes".data, contentRange := .str "bytes 0-9/10".data })
        = none := by
  decide

/-- C16, amended: for every relay request whose upstream fetch succeeds, the relay
sets the outbound `Content-Range` to the upstream value and uses status 206 if and
only if the inbound request carries a non-empty `Range` header and the upstream
response carries a non-empty `content-range` header; otherwise it sets no
`Content-Range` and uses status 200. -/
theorem relay_content_range (inboundRange filename : JSValue) (up : UpstreamHeaders) :
    ((falsy inboundRange = false ∧ falsy up.contentRange = false) →
        (relayResponse inboundRange filename up).status = 206 ∧
          headerOf "Content-Range".data (relayResponse inboundRange filename up) =
            some (toJSString up.contentRange)) ∧
      (¬ (falsy inboundRange = false ∧ falsy up.contentRange = false) →
        (relayResponse inboundRange filename up).status = 200 ∧
          headerOf "Content-Range".data (relayResponse inboundRange filename up) = none) := by
  constructor
  · rintro ⟨h1, h2⟩
    unfold relayResponse headerOf
    cases hl : falsy up.contentLength <;> cases ha : falsy up.acceptRanges <;>
      simp [h1, h2, List.find?]
  · intro h
    have hc : (!falsy inboundRange && !falsy up.contentRange) = false := by
      cases h1 : falsy inboundRange <;> cases h2 : falsy up.contentRange <;> simp_all
    unfold relayResponse headerOf
    cases hl : falsy up.contentLength <;> cases ha : falsy up.acceptRanges <;>
      simp [hc, List.find?]

/-- Witness of C16, amended: a ranged request answered with `content-range`. -/
theorem relay_content_range_witness :
    (relayResponse (.str "bytes=0-".data) .undefined
        { contentType := .undefined, contentLength := .undefined, acceptRanges := .undefined,
          contentRange := .str "bytes 0-9/10".data }).status = 206 ∧
      headerOf "Content-Range".data (relayResponse (.str "bytes=0-".data) .undefined
        { contentType := .undefined, contentLength := .undefined, acceptRanges := .undefined,
          contentRange := .str "bytes 0-9/10".data }) = some "bytes 0-9/10".data :=
  (relay_content_range (.str "bytes=0-".data) .undefined
    { contentType := .undefined, contentLength := .undefined, acceptRanges := .undefined,
      contentRange := .str "bytes 0-9/10".data }).1 ⟨rfl, rfl⟩

/-- C17: for every resolution request whose `videoUrl` is absent or empty, or does not
match the address-shape check, the handler of `/api/video-details` responds with
status 400 and a failure body, and no upstream fetch is made. -/
theorem videoDetailsHandler_rejects (env : Platform) (videoUrl : JSValue)
    (h : videoUrl = .undefined ∨ videoUrl = .null ∨ videoUrl = .str [] ∨
      facebookUrlPatternTest (toJSString videoUrl) = false) :
    (videoDetailsHandler env videoUrl).1.status = 400 ∧
      (∃ error, (videoDetailsHandler env videoUrl).1.body = .failed error) ∧
      (videoDetailsHandler env videoUrl).2 = [] := by
  unfold videoDetailsHandler
  by_cases hf : falsy videoUrl = true
  · rw [if_pos hf]
    exact ⟨rfl, ⟨_, rfl⟩, rfl⟩
  · have ht : facebookUrlPatternTest (toJSString videoUrl) = false := by
      rcases h with rfl | rfl | rfl | h
      · exact absurd rfl hf
      · exact absurd rfl hf
      · exact absurd rfl hf
      · exact h
    rw [if_neg hf, if_pos (by simp [ht])]
    exact ⟨rfl, ⟨_, rfl⟩, rfl⟩

/-- Witness of C17: an address of another site is rejected without a fetch. -/
theorem videoDetailsHandler_rejects_witness :
    (videoDetailsHandler offlinePlatform (.str "https://example.com/video".data)).1.status
        = 400 ∧
      (∃ error, (videoDetailsHandler offlinePlatform
        (.str "https://example.com/video".data)).1.body = .failed error) ∧
      (videoDetailsHandler offlinePlatform (.str "https://example.com/video".data)).2 = [] :=
  videoDetailsHandler_rejects offlinePlatform (.str "https://example.com/video".data)
    (Or.inr (Or.inr (Or.inr (by decide))))

/-- C18 fails on the code: `https://facebook.com.evil.example/v` passes the
address-shape check, `normalizeUrl` leaves it unchanged, the direct strategy fetches
it, and its host `facebook.com.evil.example` is none of the allow-listed hosts. -/
theorem accepted_address_foreign_host :
    facebookUrlPatternTest "https://facebook.com.evil.example/v".data = true ∧
      normalizeUrl "https://facebook.com.evil.example/v".data =
        "https://facebook.com.evil.example/v".data ∧
      (videoDetailsHandler offlinePlatform
        (.str "https://facebook.com.evil.example/v".data)).2.head? =
          some (directCall "https://facebook.com.evil.example/v".data) ∧
      urlHost "https://facebook.com.evil.example/v".data =
        some "facebook.com.evil.example".data ∧
      "facebook.com.evil.example".data ∉ allowedHosts := by
  decide

/-- C19 fails on the code: `extractVideoId` extracts `abc123` from
`https://fb.watch/abc123/`, `normalizeUrl` rewrites the URL to
`https://www.facebook.com/watch/?v=abc123`, from which `extractVideoId` extracts
nothing, and `getVideoDetails` issues no embedded call. -/
theorem fbWatch_identifier_lost :
    extractVideoId "https://fb.watch/abc123/".data = some "abc123".data ∧
      normalizeUrl "https://fb.watch/abc123/".data =
        "https://www.facebook.com/watch/?v=abc123".data ∧
      extractVideoId (normalizeUrl "https://fb.watch/abc123/".data) = none ∧
      (getVideoDetails offlinePlatform "https://fb.watch/abc123/".data).2 =
        [directCall "https://www.facebook.com/watch/?v=abc123".data,
         mobileCall "https://www.facebook.com/watch/?v=abc123".data] := by
  decide

end FVD
